import Mathlib

/-!
Verification of the PML incremental directive-block processing engine
(package `parser` of the fireharp/pml repository).

The Go source is shallowly embedded over `Str := List Char`: documents are
character lists (the sources are ASCII, so Go byte offsets coincide with
character offsets), file systems and caches are association lists, and the
concurrent block workers are modelled as a deterministic sequential schedule
in block-index order (each worker's effect on the shared cache is atomic in
the source, guarded by `cacheMu` / launched goroutines joined by a
`WaitGroup`).  SHA-256 digests are modelled by their exact pre-image string:
the Go code hex-encodes `sha256(pre)` and the digest is treated as injective
(two digests are equal exactly when the normalized pre-images are equal;
collisions are explicitly out of scope in the engine's design).

The repository keeps several historical variants of the same functions
side by side; the embedding carries the variants the claims cite:
suffix `A` marks the `blocks.go` / first `processfile.go` variant, suffix
`B` the `results.go` / second `processfile.go` (splice) variant.
-/

/-- Documents and lines are character lists; Go byte offsets are modelled as
character offsets (identical for the ASCII inputs the engine handles). -/
abbrev Str := List Char

/-- Go `unicode.IsSpace` restricted to the ASCII range (the characters Go's
`strings.TrimSpace` strips from ASCII text): tab, newline, vertical tab,
form feed, carriage return and space. -/
def goIsSpace (c : Char) : Bool :=
  c = ' ' || c = '\t' || c = '\n' || (c = Char.ofNat 11) || (c = Char.ofNat 12) || c = '\x0d'

/-- Go `strings.TrimSpace`: drop leading and trailing whitespace. -/
def trimSpace (s : Str) : Str :=
  ((s.dropWhile goIsSpace).reverse.dropWhile goIsSpace).reverse

/-- Go `strings.Contains s sub`: some suffix of `s` starts with `sub`. -/
def containsSub (s sub : Str) : Bool :=
  match s with
  | [] => sub.isEmpty
  | _ :: rest => sub.isPrefixOf s || containsSub rest sub

/-- Go `strings.TrimPrefix s pre` (drops `pre` only when it is present). -/
def trimPre (pre s : Str) : Str :=
  if pre.isPrefixOf s then s.drop pre.length else s

/-- Go `strings.TrimSuffix s suf` (drops `suf` only when it is present). -/
def trimSuf (suf s : Str) : Str :=
  if suf.isSuffixOf s then s.take (s.length - suf.length) else s

/-- Go `strings.Split s "\n"`: split at every newline; `n` newlines give
`n+1` pieces, each newline-free. -/
def splitLines : Str → List Str
  | [] => [[]]
  | c :: rest =>
    if c = '\n' then [] :: splitLines rest
    else
      match splitLines rest with
      | [] => [[c]]
      | l :: ls => (c :: l) :: ls

/-- Go `strings.Join ls "\n"`. -/
def joinLines : List Str → Str
  | [] => []
  | [l] => l
  | l :: l' :: ls => l ++ '\n' :: joinLines (l' :: ls)

/-- The PML directive markers (`parser.go` constants `DirectiveAsk`,
`DirectiveDo`, `DirectiveEnd`). -/
def DirectiveAsk : Str := ":ask".data

/-- The `:do` start marker. -/
def DirectiveDo : Str := ":do".data

/-- The `:--` end marker. -/
def DirectiveEnd : Str := ":--".data

/-- A parsed block (struct `Block` of the parser package): directive type,
content lines, and the byte span `[start, endPos)` in the source document.
The `Response`/`IsEphemeral` fields of the Go struct are never set by the
parsing and rewriting paths and are omitted. -/
structure Block where
  type : Str
  content : List Str
  start : Nat
  endPos : Nat
deriving DecidableEq, Repr

/-- The parse errors `parseBlocks` reports, with the data its
`fmt.Errorf` messages carry: a stray end marker or a nested start marker
carries the 1-based line number, an unterminated block carries the byte
offset at which the open block started. -/
inductive ParseError where
  | strayEnd (line : Nat)
  | nesting (line : Nat)
  | unterminated (startPos : Nat)
deriving DecidableEq, Repr

/-- Loop body of the `blocks.go` variant of `parseBlocks`: a forward scan
over the lines carrying the 0-based line index `i`, the byte offset `pos` of
the current line, the open block (if any) and the blocks closed so far.
A line equal (after trimming) to the end marker closes the open block; a
line that merely starts with the end marker (an embedded reference link
such as a line starting with the end marker followed by a parenthesis) is
treated as plain content, per the source comment "skip block termination
and treat as normal content". -/
def parseAGo : List Str → Nat → Nat → Option Block → List Block →
    Except ParseError (List Block)
  | [], _, _, cur, acc =>
    match cur with
    | some b => .error (.unterminated b.start)
    | none => .ok acc
  | line :: rest, i, pos, cur, acc =>
    let lineLen := line.length + 1
    let t := trimSpace line
    if t.isEmpty then
      match cur with
      | some b =>
        parseAGo rest (i+1) (pos + lineLen)
          (some { b with content := b.content ++ [line] }) acc
      | none => parseAGo rest (i+1) (pos + lineLen) none acc
    else if t = DirectiveEnd then
      match cur with
      | none => .error (.strayEnd (i+1))
      | some b =>
        parseAGo rest (i+1) (pos + lineLen) none
          (acc ++ [{ b with endPos := pos + line.length }])
    else if DirectiveEnd.isPrefixOf t then
      match cur with
      | some b =>
        parseAGo rest (i+1) (pos + lineLen)
          (some { b with content := b.content ++ [line] }) acc
      | none => parseAGo rest (i+1) (pos + lineLen) none acc
    else if t = DirectiveAsk ∨ t = DirectiveDo then
      match cur with
      | some _ => .error (.nesting (i+1))
      | none =>
        parseAGo rest (i+1) (pos + lineLen)
          (some { type := t, content := [], start := pos, endPos := 0 }) acc
    else
      match cur with
      | some b =>
        parseAGo rest (i+1) (pos + lineLen)
          (some { b with content := b.content ++ [line] }) acc
      | none => parseAGo rest (i+1) (pos + lineLen) none acc

/-- Trailing blank lines of a block's content are trimmed after the scan
(`blocks.go`, the loop at the end of `parseBlocks`). -/
def dropTrailingBlanks (ls : List Str) : List Str :=
  (ls.reverse.dropWhile (fun l => (trimSpace l).isEmpty)).reverse

/-- The `blocks.go` variant of `parseBlocks`: scan, then trim each block's
trailing blank lines. -/
def parseBlocksA (content : Str) : Except ParseError (List Block) :=
  (parseAGo (splitLines content) 0 0 none []).map
    (List.map (fun b => { b with content := dropTrailingBlanks b.content }))

/-- Loop body of the `results.go` variant of `parseBlocks`: any line whose
trimmed form starts with the end marker closes the open block ("Treat any
line starting with the end marker as DirectiveEnd"); there is no special
case for blank lines and no trailing-blank trimming. -/
def parseBGo : List Str → Nat → Nat → Option Block → List Block →
    Except ParseError (List Block)
  | [], _, _, cur, acc =>
    match cur with
    | some b => .error (.unterminated b.start)
    | none => .ok acc
  | line :: rest, i, pos, cur, acc =>
    let lineLen := line.length + 1
    let t := trimSpace line
    if DirectiveEnd.isPrefixOf t then
      match cur with
      | none => .error (.strayEnd (i+1))
      | some b =>
        parseBGo rest (i+1) (pos + lineLen) none
          (acc ++ [{ b with endPos := pos + line.length }])
    else if t = DirectiveAsk ∨ t = DirectiveDo then
      match cur with
      | some _ => .error (.nesting (i+1))
      | none =>
        parseBGo rest (i+1) (pos + lineLen)
          (some { type := t, content := [], start := pos, endPos := 0 }) acc
    else
      match cur with
      | some b =>
        parseBGo rest (i+1) (pos + lineLen)
          (some { b with content := b.content ++ [line] }) acc
      | none => parseBGo rest (i+1) (pos + lineLen) none acc

/-- The `results.go` variant of `parseBlocks`. -/
def parseBlocksB (content : Str) : Except ParseError (List Block) :=
  parseBGo (splitLines content) 0 0 none []

deriving instance DecidableEq for Except

/-- Lowercase ASCII letter (the regex character class used for link names). -/
def isLowerAZ (c : Char) : Bool := 'a' ≤ c ∧ c ≤ 'z'

/-- Match the result-link pattern at the head of `s`: a colon, one or more
dashes, an opening parenthesis, the letter r, a slash, one lowercase word,
an underscore, a second lowercase word, and a closing parenthesis — Go
regexp `:-+\(r/[a-z]+_[a-z]+\)` anchored at the current position.  Returns
the length of the match. -/
def matchLinkAt (s : Str) : Option Nat :=
  match s with
  | ':' :: r0 =>
    let ds := r0.takeWhile (fun c => c = '-')
    if ds.isEmpty then none
    else
      match r0.drop ds.length with
      | '(' :: 'r' :: '/' :: r1 =>
        let w1 := r1.takeWhile isLowerAZ
        if w1.isEmpty then none
        else
          match r1.drop w1.length with
          | '_' :: r2 =>
            let w2 := r2.takeWhile isLowerAZ
            if w2.isEmpty then none
            else
              match r2.drop w2.length with
              | ')' :: _ => some (1 + ds.length + 3 + w1.length + 1 + w2.length + 1)
              | _ => none
          | _ => none
      | _ => none
  | _ => none

/-- Fuelled scan for `regexp.ReplaceAllString` with the link pattern:
leftmost non-overlapping matches are replaced by the end marker; the fuel
(one unit per consumed character, every match consumes at least one) makes
the recursion structural. -/
def stripLinksGo : Nat → Str → Str
  | 0, s => s
  | fuel + 1, s =>
    match matchLinkAt s with
    | some n => DirectiveEnd ++ stripLinksGo fuel (s.drop n)
    | none =>
      match s with
      | [] => []
      | c :: rest => c :: stripLinksGo fuel rest

/-- Go `resultLinkPattern.ReplaceAllString content ":--"` from
`calculateChecksum`. -/
def stripResultLinks (s : Str) : Str := stripLinksGo s.length s

/-- The exact string the `calculateChecksum` variant cited by the spec
(strip embedded result links, trim every line, drop blank lines, join with
newlines) feeds to SHA-256.  The hex digest itself is modelled by this
pre-image: digests are equal exactly when these strings are equal. -/
def calculateChecksumPre (content : Str) : Str :=
  let stripped := stripResultLinks content
  let normalized := ((splitLines stripped).map trimSpace).filter (fun l => ¬ l.isEmpty)
  joinLines normalized

/-- The exact string `calculateBlockChecksum` (`blocks.go`) feeds to
SHA-256: the lowercased trimmed type, then each trimmed non-blank content
line, each followed by a newline. -/
def calculateBlockChecksumPre (b : Block) : Str :=
  (trimSpace b.type).map Char.toLower ++ '\n' ::
    ((b.content.map trimSpace).filter (fun l => ¬ l.isEmpty)).foldr
      (fun l r => l ++ '\n' :: r) []

/-- The twenty adjectives of the result-name word list (types file of the
parser package). -/
def adjectives : List Str :=
  ["happy".data, "clever".data, "swift".data, "gentle".data, "brave".data,
   "wise".data, "calm".data, "bright".data, "kind".data, "quick".data,
   "silent".data, "proud".data, "bold".data, "eager".data, "peaceful".data,
   "witty".data, "warm".data, "smart".data, "noble".data, "merry".data]

/-- The twenty nouns of the result-name word list. -/
def nouns : List Str :=
  ["panda".data, "falcon".data, "dolphin".data, "phoenix".data, "tiger".data,
   "maple".data, "river".data, "mountain".data, "breeze".data, "cloud".data,
   "crystal".data, "garden".data, "meadow".data, "ocean".data, "forest".data,
   "sunrise".data, "comet".data, "rainbow".data, "valley".data, "whisper".data]

/-- The seed hash of `generateUniqueResultName`: fold the source file name
through `h := (h*31 + int(c)) mod len(nouns)`.  Go `int(c)` is the rune
value, `Char.toNat` here. -/
def nameHash (sourceFile : Str) : Nat :=
  sourceFile.foldl (fun h c => (h * 31 + c.toNat) % nouns.length) 0

/-- One candidate name of the `results.go` `generateUniqueResultName`:
directive-kind prefix, adjective, noun, block index and counter, the
counter appearing verbatim at the end of the name. -/
def mkCandidate (sourceFile : Str) (blockIndex : Nat) (blockType : Str)
    (counter : Nat) : Str :=
  let h := nameHash sourceFile
  let adjIndex := (blockIndex + h + counter) % adjectives.length
  let nounIndex := ((blockIndex + h + counter) * 7) % nouns.length
  let pre : Str :=
    if blockType = DirectiveAsk then "ask_".data
    else if blockType = DirectiveDo then "do_".data
    else "result_".data
  pre ++ adjectives.getD adjIndex [] ++ '_' :: nouns.getD nounIndex [] ++
    "_block".data ++ (Nat.repr blockIndex).data ++ '_' :: (Nat.repr counter).data

/-- In-memory state of the name generator: the process-lifetime
`usedNames` set and the per-key counters of `uniqueNameCounters`
(both guarded by `usedNamesMu`, so calls are serialized and modelled
sequentially). -/
structure NameState where
  usedNames : List Str
  counters : List (Str × Nat)
deriving Repr

/-- Association-list lookup (a Go map read). -/
def alGet {α : Type} (l : List (Str × α)) (k : Str) : Option α :=
  (l.find? (fun p => p.fst = k)).map Prod.snd

/-- Association-list update (a Go map write): the key now maps to `v` and
every other key keeps its binding. -/
def alSet {α : Type} (l : List (Str × α)) (k : Str) (v : α) : List (Str × α) :=
  (k, v) :: l.filter (fun p => ¬ p.fst = k)

/-- The key of `uniqueNameCounters`: source file, block index and type
joined by underscores. -/
def counterKey (sourceFile : Str) (blockIndex : Nat) (blockType : Str) : Str :=
  sourceFile ++ '_' :: (Nat.repr blockIndex).data ++ '_' :: blockType

/-- The retry loop of `generateUniqueResultName` (`results.go` variant):
candidates are generated with increasing counters until one is not in the
in-memory `usedNames` set; the winner is recorded in the set and the
counter stored back.  The Go loop has no bound; the fuel makes it
structural, and `none` models a run that did not finish within the fuel. -/
def genLoop (sourceFile : Str) (blockIndex : Nat) (blockType : Str) :
    Nat → List Str → Nat → Option (Str × List Str × Nat)
  | 0, _, _ => none
  | fuel + 1, used, counter =>
    let nm := mkCandidate sourceFile blockIndex blockType counter
    if used.contains nm then genLoop sourceFile blockIndex blockType fuel used (counter + 1)
    else some (nm, nm :: used, counter + 1)

/-- The `results.go` `generateUniqueResultName`: read the stored counter
for the key, run the retry loop, record the winning name and the advanced
counter. -/
def generateUniqueResultName (st : NameState) (sourceFile : Str)
    (blockIndex : Nat) (blockType : Str) (fuel : Nat) :
    Option (Str × NameState) :=
  let key := counterKey sourceFile blockIndex blockType
  let c0 := (alGet st.counters key).getD 0
  match genLoop sourceFile blockIndex blockType fuel st.usedNames c0 with
  | none => none
  | some (nm, used', c') =>
    some (nm, { usedNames := used', counters := alSet st.counters key c' })

/-- The reference annotation the first `processfile.go` variant of
`updateContentWithResults` writes in place of an end-marker line:
the end marker followed by the artifact name and the quoted result. -/
def refLinkV1 (nm res : Str) : Str :=
  ":--(r/".data ++ nm ++ ":\"".data ++ res ++ "\")".data

/-- Line walk of the first `updateContentWithResults` variant: start-marker
lines, content lines and surplus end markers are copied; the end-marker
line of block `k` (when both the block and its result exist) becomes the
reference annotation.  `names k` is the value `generateUniqueResultName`
returns for block `k` (the generator's mutable state is threaded outside
this pure function), and the result-file write is modelled as succeeding
(on a write failure the source falls back to inlining the raw result). -/
def updV1Go (blocks : List Block) (results : List Str) (names : Nat → Str) :
    List Str → Nat → List Str
  | [], _ => []
  | line :: rest, k =>
    let t := trimSpace line
    if t = DirectiveAsk ∨ t = DirectiveDo then
      line :: updV1Go blocks results names rest k
    else if t = DirectiveEnd then
      (if k < blocks.length ∧ k < results.length then
        refLinkV1 (names k) (results.getD k [])
      else line) :: updV1Go blocks results names rest (k + 1)
    else
      line :: updV1Go blocks results names rest k

/-- The first (line-walk) `updateContentWithResults`: split, rewrite each
line, join. -/
def updateContentV1 (blocks : List Block) (content : Str) (results : List Str)
    (names : Nat → Str) : Str :=
  joinLines (updV1Go blocks results names (splitLines content) 0)

/-- The prefix/suffix trimming the second (splice) variant applies to a
result-file name that already arrived wrapped as a reference link. -/
def stripLinkWrap (s : Str) : Str :=
  let s1 :=
    if "--(r/".data.isPrefixOf s then trimSuf ")".data (trimPre "--(r/".data s)
    else s
  if ":--(r/".data.isPrefixOf s1 then trimSuf ")".data (trimPre ":--(r/".data s1)
  else s1

/-- Go slice `content[a:b]` (the theorems' span hypotheses keep `a ≤ b ≤
length`, the regime in which the Go slice does not panic). -/
def extractStr (content : Str) (a b : Nat) : Str := (content.take b).drop a

/-- The reference token the splice variant writes at a block's span. -/
def refLinkV2 (f : Str) : Str := ":--(r/".data ++ stripLinkWrap f ++ ")".data

/-- The splice loop of the second `updateContentWithResults` variant:
copy the bytes between the previous block's end and this block's start,
emit the reference token, continue after the block; after the last block
copy the remaining tail. -/
def spliceGo (content : Str) : List (Block × Str) → Nat → Str
  | [], lastPos => if lastPos < content.length then content.drop lastPos else []
  | (b, f) :: rest, lastPos =>
    extractStr content lastPos b.start ++ refLinkV2 f ++ spliceGo content rest b.endPos

/-- The second (splice) `updateContentWithResults` (`processfile.go`;
the `part_004` copy is identical except that it lacks `stripLinkWrap`).
With no blocks the content is returned unchanged. -/
def updateContentV2 (blocks : List Block) (content : Str) (resultFiles : List Str) : Str :=
  if blocks.isEmpty then content else spliceGo content (blocks.zip resultFiles) 0

/-- A cached block result (struct `BlockCache`): checksum key, stored
result text and the write time (Go `time.Time` modelled as an integer
count of nanoseconds). -/
structure BlockCache where
  checksum : Str
  result : Str
  modTime : Int
deriving DecidableEq, Repr

/-- A per-document cache entry (struct `CacheEntry`). -/
structure CacheEntry where
  checksum : Str
  modTime : Int
  blocks : List (Str × BlockCache)
deriving DecidableEq, Repr

/-- The in-memory cache: document path to cache entry. -/
abbrev Cache := List (Str × CacheEntry)

/-- Nanoseconds per hour (Go `time.Hour`). -/
def nsPerHour : Int := 3600000000000

/-- The retention window of the cache loader: 24 hours. -/
def retention : Int := 24 * nsPerHour

/-- Pruning applied to one entry at load: block results whose age
`now - modTime` exceeds the retention window are deleted
("Clean up expired entries (older than 24 hours)").  The Go code also
replaces a nil block map by an empty one, which the list model already is. -/
def pruneEntry (now : Int) (e : CacheEntry) : CacheEntry :=
  { e with blocks := e.blocks.filter (fun p => ¬ (now - p.snd.modTime > retention)) }

/-- The `cacheMu`-guarded variant of `loadCache` (the reconciled variant
the spec describes; the two older copies in the tree skip the pruning
loop): a missing or corrupted backing file yields an empty cache, and each
loaded entry has its expired block results pruned. -/
def loadCache (now : Int) (disk : Option Cache) : Cache :=
  match disk with
  | none => []
  | some entries => entries.map (fun p => (p.fst, pruneEntry now p.snd))

/-- The first `processBlock` variant (`processfile.go`): on a cache hit
(absent force mode) the cached result is returned with no executor call;
on a miss the executor (`p.llm.Ask`, the `llm` parameter here) runs on the
joined content and the result is recorded in the cache.  The third
component counts executor invocations (0 or 1). -/
def processBlockV1 (force : Bool) (llm : Str → Except Str Str) (cache : Cache)
    (path : Str) (b : Block) (now : Int) : Except Str Str × Cache × Nat :=
  let cs := calculateBlockChecksumPre b
  let hit : Option BlockCache :=
    if force then none
    else
      match alGet cache path with
      | some entry => alGet entry.blocks cs
      | none => none
  match hit with
  | some bc => (.ok bc.result, cache, 0)
  | none =>
    if b.type = DirectiveAsk ∨ b.type = DirectiveDo then
      match llm (joinLines b.content) with
      | .error e => (.error ("failed to process block: ".data ++ e), cache, 1)
      | .ok result =>
        let bc : BlockCache := ⟨cs, result, now⟩
        let cache' :=
          match alGet cache path with
          | some entry => alSet cache path { entry with blocks := alSet entry.blocks cs bc }
          | none => alSet cache path ⟨[], 0, [(cs, bc)]⟩
        (.ok result, cache', 1)
    else (.error ("unknown block type: ".data ++ b.type), cache, 0)

/-- The block workers of the first `ProcessFile` variant, as the
deterministic index-order schedule: every block is processed (the
goroutines all run to completion even when one fails) and the cache is
threaded through.  Returns the per-block outcomes, the final cache, and
the total number of executor calls. -/
def processAllV1 (force : Bool) (llm : Str → Except Str Str) (path : Str)
    (now : Int) : List Block → Cache → List (Except Str Str) × Cache × Nat
  | [], cache => ([], cache, 0)
  | b :: bs, cache =>
    let r := processBlockV1 force llm cache path b now
    let rest := processAllV1 force llm path now bs r.2.1
    (r.1 :: rest.1, rest.2.1, r.2.2 + rest.2.2)

/-- The failures among the outcomes, with their block indices (the model
of the order in which `firstErr` can observe them). -/
def indexedFailures : List (Except Str Str) → Nat → List (Nat × Str)
  | [], _ => []
  | .error e :: rest, i => (i, e) :: indexedFailures rest (i + 1)
  | .ok _ :: rest, i => indexedFailures rest (i + 1)

/-- The first failing block, by index. -/
def firstFailure (rs : List (Except Str Str)) : Option (Nat × Str) :=
  (indexedFailures rs 0).head?

/-- The errors a `ProcessFile` run can return, keyed by the `fmt.Errorf`
wrapping chain of the source. -/
inductive ProcErr where
  | readFail
  | statFail
  | parseFail (e : ParseError)
  | blockFail (i : Nat) (e : Str)
  | cancelled
  | multiErr (es : List (Nat × Str))
deriving DecidableEq, Repr

/-- An ASCII apostrophe (kept out of string literals). -/
def apos : Char := Char.ofNat 39

/-- Line walk of Go `replaceBlocksInContent` (`blocks.go`). -/
def replGo (blocks : List Block) : List Str → Nat → Bool → Str
  | [], _, _ => []
  | line :: rest, k, inBlock =>
    let t := trimSpace line
    if t = DirectiveAsk ∨ t = DirectiveDo then
      (if h : k < blocks.length then
        let b := blocks.get ⟨k, h⟩
        "# ".data ++ b.type ++ '\n' ::
          "result_".data ++ (Nat.repr k).data ++
          (if b.type = DirectiveAsk then " = process_ask(".data else " = process_do(".data) ++
          [apos, apos, apos, '\n'] ++ joinLines b.content ++ '\n' :: [apos, apos, apos] ++ ")\n".data
      else []) ++ replGo blocks rest k true
    else if t = DirectiveEnd then
      "# :--\n".data ++ replGo blocks rest (k + 1) false
    else
      (if inBlock then [] else line ++ ['\n']) ++ replGo blocks rest k inBlock

/-- Go `replaceBlocksInContent` (`blocks.go`): the generated Python rendering
of the document that the first `ProcessFile` variant writes next to the
source file. -/
def replaceBlocksInContent (content : Str) (blocks : List Block) : Str :=
  let header := "# Auto-generated imports for PML blocks\nfrom src.pml.directives import process_ask, process_do\n\n".data
  header ++ replGo blocks (splitLines content) 0 false

/-- The mutable world a `ProcessFile` run touches: the file system (path to
content) and the in-memory cache.  Directory creation and the cache's disk
snapshot (`saveCache`, whose failure is only logged) are modelled as
succeeding. -/
structure PState where
  fs : List (Str × Str)
  cache : Cache
deriving Repr

/-- The skip test of the first `ProcessFile` variant. -/
def skipPathV1 (path : Str) : Bool :=
  containsSub path "/.pml/".data || containsSub path "\\.pml\\".data

/-- The skip test of the second `ProcessFile` variant. -/
def skipPathV2 (path : Str) : Bool := containsSub path ".pml/".data

/-- The first `ProcessFile` variant (`processfile.go`): skip paths inside a
`.pml` directory; read and parse; write the generated Python file; run all
block workers; on any block failure return the first error without
touching the source document; on full success rewrite the document in
place and record every block result in the cache entry for the path.
`names k` stands for the name `generateUniqueResultName` hands the
rewriter for block `k`. -/
def processFileV1 (force : Bool) (llm : Str → Except Str Str) (names : Nat → Str)
    (now : Int) (st : PState) (path : Str) : Except ProcErr Unit × PState :=
  if skipPathV1 path then (.ok (), st)
  else
    match alGet st.fs path with
    | none => (.error .readFail, st)
    | some content =>
      match parseBlocksA content with
      | .error e => (.error (.parseFail e), st)
      | .ok blocks =>
        let pyPath := path ++ ".py".data
        let fs1 := alSet st.fs pyPath (replaceBlocksInContent content blocks)
        let pr := processAllV1 force llm path now blocks st.cache
        match firstFailure pr.1 with
        | some ie => (.error (.blockFail ie.1 ie.2), ⟨fs1, pr.2.1⟩)
        | none =>
          let resultStrs := pr.1.map (fun r => r.toOption.getD [])
          let updated := updateContentV1 blocks content resultStrs names
          let fs2 := alSet fs1 path updated
          let entry0 := (alGet pr.2.1 path).getD ⟨[], 0, []⟩
          let entry1 : CacheEntry :=
            { entry0 with checksum := calculateChecksumPre content, modTime := now }
          let entry2 :=
            (blocks.zip resultStrs).foldl
              (fun e p =>
                { e with
                  blocks := alSet e.blocks (calculateBlockChecksumPre p.1)
                    ⟨calculateBlockChecksumPre p.1, p.2, now⟩ }) entry1
          (.ok (), ⟨fs2, alSet pr.2.1 path entry2⟩)

/-- The second `processBlock` variant: a cancellation check on entry, the
same cache-hit shortcut, then the executor; on success the result file
name generated for the block index is returned while the raw result is
what lands in the cache.  Result-file writing is modelled as succeeding. -/
def processBlockV2 (cancelled force : Bool) (llm : Str → Except Str Str)
    (cache : Cache) (path : Str) (b : Block) (index : Nat) (nameFor : Nat → Str)
    (now : Int) : Except Str Str × Cache × Nat :=
  if cancelled then (.error "context canceled".data, cache, 0)
  else
    let cs := calculateBlockChecksumPre b
    let hit : Option BlockCache :=
      if force then none
      else
        match alGet cache path with
        | some entry => alGet entry.blocks cs
        | none => none
    match hit with
    | some bc => (.ok bc.result, cache, 0)
    | none =>
      if b.type = DirectiveAsk ∨ b.type = DirectiveDo then
        match llm (joinLines b.content) with
        | .error e => (.error ("failed to process block: ".data ++ e), cache, 1)
        | .ok result =>
          let bc : BlockCache := ⟨cs, result, now⟩
          let cache' :=
            match alGet cache path with
            | some entry => alSet cache path { entry with blocks := alSet entry.blocks cs bc }
            | none => alSet cache path ⟨[], 0, [(cs, bc)]⟩
          (.ok (nameFor index), cache', 1)
      else (.error ("unknown block type: ".data ++ b.type), cache, 0)

/-- The block workers of the second `ProcessFile` variant in index order,
threading the cache and counting executor calls. -/
def processAllV2 (force : Bool) (llm : Str → Except Str Str) (path : Str)
    (nameFor : Nat → Str) (now : Int) :
    List Block → Nat → Cache → List (Except Str Str) × Cache × Nat
  | [], _, cache => ([], cache, 0)
  | b :: bs, i, cache =>
    let r := processBlockV2 false force llm cache path b i nameFor now
    let rest := processAllV2 force llm path nameFor now bs (i + 1) r.2.1
    (r.1 :: rest.1, rest.2.1, r.2.2 + rest.2.2)

/-- The second `ProcessFile` variant: skip test on `.pml/` only, a stat of
the path (its failure surfaces as an error), checksum, parse, cache-entry
initialization (a changed document checksum resets the entry), the worker
pool, the error collection (all failures are wrapped together), and the
splice rewrite.  A cancelled context aborts between dispatch and commit. -/
def processFileV2 (cancelled force : Bool) (llm : Str → Except Str Str)
    (nameFor : Nat → Str) (now : Int) (st : PState) (path : Str) :
    Except ProcErr Unit × PState :=
  if skipPathV2 path then (.ok (), st)
  else
    match alGet st.fs path with
    | none => (.error .statFail, st)
    | some content =>
      let fileChecksum := calculateChecksumPre content
      match parseBlocksB content with
      | .error e => (.error (.parseFail e), st)
      | .ok blocks =>
        let entry : CacheEntry :=
          match alGet st.cache path with
          | some e => if e.checksum = fileChecksum then e else ⟨fileChecksum, now, []⟩
          | none => ⟨fileChecksum, now, []⟩
        let cache1 := alSet st.cache path entry
        if cancelled ∧ ¬ blocks.isEmpty then (.error .cancelled, ⟨st.fs, cache1⟩)
        else
          let pr := processAllV2 force llm path nameFor now blocks 0 cache1
          match indexedFailures pr.1 0 with
          | [] =>
            let resultFiles := pr.1.map (fun r => r.toOption.getD [])
            let updated := updateContentV2 blocks content resultFiles
            (.ok (), ⟨alSet st.fs path updated, pr.2.1⟩)
          | es => (.error (.multiErr es), ⟨st.fs, pr.2.1⟩)

/-- Go `IsPMLFile` (`parser.go`): paths inside a `.pml` directory are not
PML files; otherwise the lowercased path must end in the PML extension. -/
def isPMLFile (path : Str) : Bool :=
  if containsSub path "/.pml/".data || containsSub path "\\.pml\\".data then false
  else ".pml".data.isSuffixOf (path.map Char.toLower)

/-- Loop of the older (3-argument) `generateUniqueResultName` kept in the
tree, the one the first `updateContentWithResults` variant calls: the
candidate is an adjective–noun pair with no counter in the name, and the
only collision check is existence of the candidate result file on disk
(`onDisk`).  Past the full combinatorial space the timestamp fallback is
returned.  The fuel mirrors the source's counter bound. -/
def genV012Loop (sourceFile : Str) (blockIndex : Nat) (onDisk : Str → Bool)
    (tstamp : Nat) : Nat → Nat → Str
  | 0, _ => "result_".data ++ (Nat.repr tstamp).data
  | fuel + 1, counter =>
    let h := nameHash sourceFile
    let adjIndex := (blockIndex + h + counter) % adjectives.length
    let nounIndex := ((blockIndex + h + counter) * 7) % nouns.length
    let nm := adjectives.getD adjIndex [] ++ '_' :: nouns.getD nounIndex []
    if onDisk (nm ++ ".pml".data) then
      if counter + 1 > adjectives.length * nouns.length then
        "result_".data ++ (Nat.repr tstamp).data
      else genV012Loop sourceFile blockIndex onDisk tstamp fuel (counter + 1)
    else nm

/-- The 3-argument `generateUniqueResultName` (older copy). -/
def generateUniqueResultNameV012 (sourceFile : Str) (blockIndex : Nat)
    (onDisk : Str → Bool) (tstamp : Nat) : Str :=
  genV012Loop sourceFile blockIndex onDisk tstamp
    (adjectives.length * nouns.length + 2) 0

/-- The defect kinds of the parsing state machine of the spec: an end
marker with no open block, or a start marker inside an open block. -/
inductive DefectKind where
  | stray
  | nest
deriving DecidableEq, Repr

/-- Line classes of the `blocks.go` scan: a line is an end marker when its
trimmed form is exactly the end marker, a start marker when its trimmed
form is a directive, and anything else (blank lines and embedded reference
links included) is plain text. -/
inductive LClass where
  | opener
  | closer
  | other
deriving DecidableEq, Repr

/-- Classify one line for the `blocks.go` scan. -/
def classifyA (l : Str) : LClass :=
  if trimSpace l = DirectiveEnd then .closer
  else if trimSpace l = DirectiveAsk ∨ trimSpace l = DirectiveDo then .opener
  else .other

/-- The claim's two-state machine (`Outside` / `InBlock`, the Boolean):
scanning the lines, the first end marker while outside is a stray-end
defect, the first start marker while inside is a nesting defect; with no
defect the final state is returned.  Defects carry 1-based line numbers. -/
def scanA : List Str → Nat → Bool → Except (Nat × DefectKind) Bool
  | [], _, openB => .ok openB
  | l :: rest, i, openB =>
    match classifyA l with
    | .closer => if openB then scanA rest (i + 1) false else .error (i + 1, .stray)
    | .opener => if openB then .error (i + 1, .nest) else scanA rest (i + 1) true
    | .other => scanA rest (i + 1) openB

/-- The bytes of a document outside the block spans, in order: the slice
before the first block, the slices between consecutive blocks, and the
tail after the last block. -/
def outsideSegments (content : Str) : Nat → List Block → List Str
  | lo, [] => [content.drop lo]
  | lo, b :: bs => extractStr content lo b.start :: outsideSegments content b.endPos bs

/-- Alternate segments and tokens: `s0 t0 s1 t1 ... sn`. -/
def interleaveJoin : List Str → List Str → Str
  | s :: ss, t :: ts => s ++ t ++ interleaveJoin ss ts
  | s :: _, [] => s
  | [], _ => []

/-- Sorted, non-overlapping spans lying inside the document — the shape
`parseBlocks` guarantees and the splice relies on. -/
def spansOK (content : Str) : Nat → List Block → Bool
  | lo, [] => lo ≤ content.length
  | lo, b :: bs => lo ≤ b.start && b.start ≤ b.endPos && spansOK content b.endPos bs

/-- A line that cannot be mistaken for a partial end marker: if its
trimmed form starts with the end marker then it is exactly the end marker.
Documents produced by hand satisfy this; embedded reference links are
exactly what the condition excludes. -/
def cleanLine (l : Str) : Bool :=
  !(DirectiveEnd.isPrefixOf (trimSpace l)) || trimSpace l == DirectiveEnd

/-- A sequence of name-generation requests (source file, block index,
type) executed against the generator's shared state; requests that run out
of fuel yield no name. -/
def runGen : NameState → List (Str × Nat × Str) → Nat → List Str × NameState
  | st, [], _ => ([], st)
  | st, (sf, bi, bt) :: reqs, fuel =>
    match generateUniqueResultName st sf bi bt fuel with
    | none => runGen st reqs fuel
    | some (nm, st') =>
      let r := runGen st' reqs fuel
      (nm :: r.1, r.2)

/-- The concrete document of the spec's worked example. -/
def exampleDoc : Str := ":ask\nWhat is 2+2?\n:--".data

/-- Its single parsed block. -/
def exampleBlock : Block :=
  { type := DirectiveAsk, content := ["What is 2+2?".data], start := 0, endPos := 21 }

/-- The artifact name the 3-argument generator yields for the example
document's block on an empty results directory. -/
def exampleName : Str :=
  generateUniqueResultNameV012 "test.pml".data 0 (fun _ => false) 0

/-- Look a block checksum up through the path's cache entry — the
two-level read both `processBlock` variants perform. -/
def blockLookup (cache : Cache) (path : Str) (cs : Str) : Option BlockCache :=
  match alGet cache path with
  | some entry => alGet entry.blocks cs
  | none => none

/-- A one-block document used by the re-parsing counterexample. -/
def c5doc : Str := ":ask\nQ\n:--".data

/-- Its single parsed block. -/
def c5block : Block :=
  { type := DirectiveAsk, content := ["Q".data], start := 0, endPos := 10 }

theorem classifyA_of_empty {l : Str} (h : (trimSpace l).isEmpty) :
    classifyA l = .other := by
  unfold classifyA
  have h' : trimSpace l = [] := by
    cases ht : trimSpace l with
    | nil => rfl
    | cons a as => rw [ht] at h; simp [List.isEmpty] at h
  rw [h']
  decide

theorem classifyA_closer {l : Str} (h : trimSpace l = DirectiveEnd) :
    classifyA l = .closer := by
  unfold classifyA
  rw [h]
  decide

theorem classifyA_of_endStart {l : Str} (h : DirectiveEnd.isPrefixOf (trimSpace l))
    (h2 : ¬ trimSpace l = DirectiveEnd) : classifyA l = .other := by
  unfold classifyA
  rw [if_neg h2, if_neg]
  rintro (h3 | h3) <;> rw [h3] at h
  · exact absurd h (by decide)
  · exact absurd h (by decide)

theorem classifyA_opener {l : Str}
    (h : trimSpace l = DirectiveAsk ∨ trimSpace l = DirectiveDo) :
    classifyA l = .opener := by
  unfold classifyA
  rcases h with h | h <;> rw [h] <;> decide

theorem classifyA_other {l : Str} (h2 : ¬ trimSpace l = DirectiveEnd)
    (h4 : ¬ (trimSpace l = DirectiveAsk ∨ trimSpace l = DirectiveDo)) :
    classifyA l = .other := by
  unfold classifyA
  rw [if_neg h2, if_neg h4]

theorem dend_isEmpty : (DirectiveEnd : Str).isEmpty = false := rfl

theorem askNeNil : DirectiveAsk ≠ ([] : Str) := by decide

theorem doNeNil : DirectiveDo ≠ ([] : Str) := by decide

theorem askNeEnd : DirectiveAsk ≠ DirectiveEnd := by decide

theorem doNeEnd : DirectiveDo ≠ DirectiveEnd := by decide

theorem endNotPreAsk : ¬ DirectiveEnd <+: DirectiveAsk := by decide

theorem endNotPreDo : ¬ DirectiveEnd <+: DirectiveDo := by decide

theorem scanA_cons (l : Str) (rest : List Str) (i : Nat) (openB : Bool) :
    scanA (l :: rest) i openB =
      match classifyA l with
      | .closer => if openB then scanA rest (i + 1) false else .error (i + 1, .stray)
      | .opener => if openB then .error (i + 1, .nest) else scanA rest (i + 1) true
      | .other => scanA rest (i + 1) openB := rfl

theorem parseAGo_scanA (lines : List Str) :
    ∀ (i pos : Nat) (cur : Option Block) (acc : List Block),
      match scanA lines i cur.isSome with
      | .ok false => ∃ bs, parseAGo lines i pos cur acc = .ok bs
      | .ok true => ∃ p, parseAGo lines i pos cur acc = .error (.unterminated p)
      | .error (m, .stray) => parseAGo lines i pos cur acc = .error (.strayEnd m)
      | .error (m, .nest) => parseAGo lines i pos cur acc = .error (.nesting m) := by
  induction lines with
  | nil =>
    intro i pos cur acc
    cases cur with
    | none => exact ⟨acc, rfl⟩
    | some b => exact ⟨b.start, rfl⟩
  | cons l rest ih =>
    intro i pos cur acc
    by_cases h1 : (trimSpace l).isEmpty
    · have hc := classifyA_of_empty h1
      have hstep : scanA (l :: rest) i cur.isSome = scanA rest (i + 1) cur.isSome := by
        rw [scanA_cons, hc]
      rw [hstep]
      cases cur with
      | none =>
        have := ih (i + 1) (pos + (l.length + 1)) none acc
        simpa [parseAGo, h1] using this
      | some b =>
        have := ih (i + 1) (pos + (l.length + 1))
          (some { b with content := b.content ++ [l] }) acc
        simpa [parseAGo, h1] using this
    · by_cases h2 : trimSpace l = DirectiveEnd
      · have hc := classifyA_closer h2
        cases cur with
        | none =>
          have hstep : scanA (l :: rest) i false = .error (i + 1, .stray) := by
            rw [scanA_cons, hc]; rfl
          simp only [Option.isSome_none, hstep]
          simp [parseAGo, h1, h2, dend_isEmpty]
        | some b =>
          have hstep : scanA (l :: rest) i true = scanA rest (i + 1) false := by
            rw [scanA_cons, hc]; rfl
          simp only [Option.isSome_some, hstep]
          have := ih (i + 1) (pos + (l.length + 1)) none
            (acc ++ [{ b with endPos := pos + l.length }])
          simpa [parseAGo, h1, h2, dend_isEmpty] using this
      · by_cases h3 : DirectiveEnd.isPrefixOf (trimSpace l)
        · have hc := classifyA_of_endStart h3 h2
          have hstep : scanA (l :: rest) i cur.isSome = scanA rest (i + 1) cur.isSome := by
            rw [scanA_cons, hc]
          rw [hstep]
          cases cur with
          | none =>
            have := ih (i + 1) (pos + (l.length + 1)) none acc
            simpa [parseAGo, h1, h2, h3] using this
          | some b =>
            have := ih (i + 1) (pos + (l.length + 1))
              (some { b with content := b.content ++ [l] }) acc
            simpa [parseAGo, h1, h2, h3] using this
        · by_cases h4 : trimSpace l = DirectiveAsk ∨ trimSpace l = DirectiveDo
          · have hc := classifyA_opener h4
            cases cur with
            | none =>
              have hstep : scanA (l :: rest) i false = scanA rest (i + 1) true := by
                rw [scanA_cons, hc]; rfl
              simp only [Option.isSome_none, hstep]
              have := ih (i + 1) (pos + (l.length + 1))
                (some { type := trimSpace l, content := [], start := pos, endPos := 0 }) acc
              rcases h4 with h4 | h4 <;>
                simpa [parseAGo, h1, h2, h3, h4, askNeNil, doNeNil, askNeEnd, doNeEnd,
                  endNotPreAsk, endNotPreDo] using this
            | some b =>
              have hstep : scanA (l :: rest) i true = .error (i + 1, .nest) := by
                rw [scanA_cons, hc]; rfl
              simp only [Option.isSome_some, hstep]
              rcases h4 with h4 | h4 <;>
                simp [parseAGo, h1, h2, h3, h4, askNeNil, doNeNil, askNeEnd, doNeEnd,
                  endNotPreAsk, endNotPreDo]
          · have hc := classifyA_other h2 h4
            have hstep : scanA (l :: rest) i cur.isSome = scanA rest (i + 1) cur.isSome := by
              rw [scanA_cons, hc]
            rw [hstep]
            cases cur with
            | none =>
              have := ih (i + 1) (pos + (l.length + 1)) none acc
              simpa [parseAGo, h1, h2, h3, h4] using this
            | some b =>
              have := ih (i + 1) (pos + (l.length + 1))
                (some { b with content := b.content ++ [l] }) acc
              simpa [parseAGo, h1, h2, h3, h4] using this

/-- C6: the `blocks.go` `parseBlocks` errs with a nesting error exactly when
a start-marker line occurs while a block is open, with a stray-end error
exactly when an end-marker line occurs while no block is open, and with an
unterminated-block error exactly when the input ends inside a block; every
other input parses, and an open marker immediately followed by the end
marker yields one block with empty content. -/
theorem parse_error_taxonomy :
    (∀ content : Str,
      ((∃ bs, parseBlocksA content = .ok bs) ↔
        scanA (splitLines content) 0 false = .ok false) ∧
      (∀ m, parseBlocksA content = .error (.strayEnd m) ↔
        scanA (splitLines content) 0 false = .error (m, .stray)) ∧
      (∀ m, parseBlocksA content = .error (.nesting m) ↔
        scanA (splitLines content) 0 false = .error (m, .nest)) ∧
      ((∃ p, parseBlocksA content = .error (.unterminated p)) ↔
        scanA (splitLines content) 0 false = .ok true)) ∧
    parseBlocksA (":ask\n:--".data) =
      .ok [{ type := DirectiveAsk, content := [], start := 0, endPos := 8 }] := by
  constructor
  · intro content
    have H := parseAGo_scanA (splitLines content) 0 0 none []
    simp only [Option.isSome_none] at H
    rcases hs : scanA (splitLines content) 0 false with ⟨m, k⟩ | b
    · rw [hs] at H
      cases k
      · refine ⟨?_, ?_, ?_, ?_⟩ <;>
          simp [parseBlocksA, H, hs, Except.map]
      · refine ⟨?_, ?_, ?_, ?_⟩ <;>
          simp [parseBlocksA, H, hs, Except.map]
    · rw [hs] at H
      cases b
      · obtain ⟨bs, hbs⟩ := H
        refine ⟨?_, ?_, ?_, ?_⟩ <;>
          simp [parseBlocksA, hbs, hs, Except.map]
      · obtain ⟨p, hp⟩ := H
        refine ⟨?_, ?_, ?_, ?_⟩ <;>
          simp [parseBlocksA, hp, hs, Except.map]
  · decide

theorem spliceGo_eq (content : Str) :
    ∀ (bfs : List (Block × Str)) (lo : Nat),
      spansOK content lo (bfs.map Prod.fst) = true →
      spliceGo content bfs lo =
        interleaveJoin (outsideSegments content lo (bfs.map Prod.fst))
          ((bfs.map Prod.snd).map refLinkV2) := by
  intro bfs
  induction bfs with
  | nil =>
    intro lo h
    simp only [List.map_nil, spansOK] at h
    simp only [spliceGo, outsideSegments, List.map_nil, interleaveJoin]
    by_cases hlt : lo < content.length
    · rw [if_pos hlt]
    · rw [if_neg hlt]
      rw [List.drop_eq_nil_of_le (by omega)]
  | cons bf rest ih =>
    intro lo h
    obtain ⟨b, f⟩ := bf
    simp only [List.map_cons, spansOK, Bool.and_eq_true, decide_eq_true_eq] at h
    simp only [spliceGo, List.map_cons, outsideSegments, interleaveJoin]
    rw [ih b.endPos h.2]

/-- C2: the splice variant of `updateContentWithResults` reproduces, in
order and verbatim, every byte of the original document outside the block
spans, and writes exactly the fixed reference token of each block's
artifact in place of its `[start, endPos)` span — the output is literally
the alternation of the outside slices with the reference tokens. -/
theorem splice_preserves_outside (content : Str) (blocks : List Block)
    (files : List Str) (hspans : spansOK content 0 blocks = true)
    (hlen : blocks.length = files.length) :
    updateContentV2 blocks content files =
      interleaveJoin (outsideSegments content 0 blocks) (files.map refLinkV2) := by
  unfold updateContentV2
  by_cases hb : blocks.isEmpty
  · rw [if_pos hb]
    rw [List.isEmpty_iff] at hb
    subst hb
    cases files with
    | nil => simp [outsideSegments, interleaveJoin]
    | cons a as => simp at hlen
  · rw [if_neg hb]
    have hfst : (blocks.zip files).map Prod.fst = blocks :=
      List.map_fst_zip blocks files (le_of_eq hlen)
    have hsnd : (blocks.zip files).map Prod.snd = files :=
      List.map_snd_zip blocks files (ge_of_eq hlen)
    have := spliceGo_eq content (blocks.zip files) 0 (by rw [hfst]; exact hspans)
    rw [hfst, hsnd] at this
    exact this

/-- Witness for the splice theorem: a document with text before, between
and after two blocks. -/
theorem splice_preserves_outside_witness :
    spansOK "pre\n:ask\nQ1\n:--\nmid\n:do\nQ2\n:--\npost".data 0
        [{ type := DirectiveAsk, content := ["Q1".data], start := 4, endPos := 15 },
         { type := DirectiveDo, content := ["Q2".data], start := 20, endPos := 30 }] = true ∧
      updateContentV2
        [{ type := DirectiveAsk, content := ["Q1".data], start := 4, endPos := 15 },
         { type := DirectiveDo, content := ["Q2".data], start := 20, endPos := 30 }]
        "pre\n:ask\nQ1\n:--\nmid\n:do\nQ2\n:--\npost".data
        ["a_b".data, "c_d".data] =
      interleaveJoin
        (outsideSegments "pre\n:ask\nQ1\n:--\nmid\n:do\nQ2\n:--\npost".data 0
          [{ type := DirectiveAsk, content := ["Q1".data], start := 4, endPos := 15 },
           { type := DirectiveDo, content := ["Q2".data], start := 20, endPos := 30 }])
        (["a_b".data, "c_d".data].map refLinkV2) := by
  refine ⟨by decide, ?_⟩
  exact splice_preserves_outside _ _ _ (by decide) (by decide)

theorem alGet_alSet_same {α : Type} (l : List (Str × α)) (k : Str) (v : α) :
    alGet (alSet l k v) k = some v := by
  simp [alGet, alSet, List.find?]

theorem alGet_alSet_ne {α : Type} (l : List (Str × α)) (k k' : Str) (v : α)
    (h : k' ≠ k) : alGet (alSet l k v) k' = alGet l k' := by
  unfold alGet alSet
  rw [List.find?_cons_of_neg _ (by simp [Ne.symm h])]
  congr 1
  induction l with
  | nil => rfl
  | cons p rest ih =>
    rw [List.filter_cons]
    by_cases hp : p.fst = k
    · rw [if_neg (by simp [hp])]
      rw [List.find?_cons_of_neg _ (by simp [hp, Ne.symm h])]
      exact ih
    · rw [if_pos (by simp [hp])]
      by_cases hk' : p.fst = k'
      · rw [List.find?_cons_of_pos _ (by simp [hk']),
          List.find?_cons_of_pos _ (by simp [hk'])]
      · rw [List.find?_cons_of_neg _ (by simp [hk']),
          List.find?_cons_of_neg _ (by simp [hk'])]
        exact ih

theorem processBlockV1_hit (llm : Str → Except Str Str) (cache : Cache)
    (path : Str) (b : Block) (now : Int) (bc : BlockCache)
    (h : blockLookup cache path (calculateBlockChecksumPre b) = some bc) :
    processBlockV1 false llm cache path b now = (.ok bc.result, cache, 0) := by
  unfold blockLookup at h
  unfold processBlockV1
  cases halg : alGet cache path with
  | none => rw [halg] at h; cases h
  | some entry =>
    rw [halg] at h
    have h' : alGet entry.blocks (calculateBlockChecksumPre b) = some bc := h
    simp [halg, h']

theorem processBlockV2_hit (llm : Str → Except Str Str) (cache : Cache)
    (path : Str) (b : Block) (index : Nat) (nameFor : Nat → Str) (now : Int)
    (bc : BlockCache)
    (h : blockLookup cache path (calculateBlockChecksumPre b) = some bc) :
    processBlockV2 false false llm cache path b index nameFor now =
      (.ok bc.result, cache, 0) := by
  unfold blockLookup at h
  unfold processBlockV2
  cases halg : alGet cache path with
  | none => rw [halg] at h; cases h
  | some entry =>
    rw [halg] at h
    have h' : alGet entry.blocks (calculateBlockChecksumPre b) = some bc := h
    simp [halg, h']

theorem processBlockV1_miss_spec (llm : Str → Except Str Str) (cache : Cache)
    (path : Str) (b : Block) (now : Int)
    (hmiss : blockLookup cache path (calculateBlockChecksumPre b) = none)
    (htype : b.type = DirectiveAsk ∨ b.type = DirectiveDo) :
    (processBlockV1 false llm cache path b now).2.2 = 1 ∧
    (∀ e, llm (joinLines b.content) = .error e →
      processBlockV1 false llm cache path b now =
        (.error ("failed to process block: ".data ++ e), cache, 1)) ∧
    (∀ r, llm (joinLines b.content) = .ok r →
      (processBlockV1 false llm cache path b now).1 = .ok r ∧
      blockLookup (processBlockV1 false llm cache path b now).2.1 path
        (calculateBlockChecksumPre b) =
        some ⟨calculateBlockChecksumPre b, r, now⟩ ∧
      (∀ cs', cs' ≠ calculateBlockChecksumPre b →
        blockLookup (processBlockV1 false llm cache path b now).2.1 path cs' =
          blockLookup cache path cs')) := by
  unfold blockLookup at hmiss
  have htype' : (b.type = DirectiveAsk ∨ b.type = DirectiveDo) = True := by
    simp [htype]
  cases halg : alGet cache path with
  | none =>
    refine ⟨?_, ?_, ?_⟩
    · cases hllm : llm (joinLines b.content) <;>
        simp [processBlockV1, halg, htype', hllm]
    · intro e he
      simp [processBlockV1, halg, htype', he]
    · intro r hr
      refine ⟨by simp [processBlockV1, halg, htype', hr], ?_, ?_⟩
      · simp [processBlockV1, halg, htype', hr, blockLookup]
        rw [alGet_alSet_same]
        simp [alGet]
      · intro cs' hcs'
        simp [processBlockV1, halg, htype', hr, blockLookup]
        rw [alGet_alSet_same]
        simp [alGet, halg, Ne.symm hcs']
  | some entry =>
    rw [halg] at hmiss
    have hmiss' : alGet entry.blocks (calculateBlockChecksumPre b) = none := hmiss
    refine ⟨?_, ?_, ?_⟩
    · cases hllm : llm (joinLines b.content) <;>
        simp [processBlockV1, halg, hmiss', htype', hllm]
    · intro e he
      simp [processBlockV1, halg, hmiss', htype', he]
    · intro r hr
      refine ⟨by simp [processBlockV1, halg, hmiss', htype', hr], ?_, ?_⟩
      · simp [processBlockV1, halg, hmiss', htype', hr, blockLookup]
        rw [alGet_alSet_same]
        exact alGet_alSet_same _ _ _
      · intro cs' hcs'
        simp [processBlockV1, halg, hmiss', htype', hr, blockLookup]
        rw [alGet_alSet_same]
        exact alGet_alSet_ne _ _ _ _ hcs'

theorem processAllV1_warm (llm : Str → Except Str Str) (path : Str) (now : Int) :
    ∀ (blocks : List Block) (cache : Cache),
      (∀ b ∈ blocks, (blockLookup cache path (calculateBlockChecksumPre b)).isSome = true) →
      (processAllV1 false llm path now blocks cache).2.1 = cache ∧
      (processAllV1 false llm path now blocks cache).2.2 = 0 := by
  intro blocks
  induction blocks with
  | nil => intro cache _; exact ⟨rfl, rfl⟩
  | cons b bs ih =>
    intro cache hall
    have hb := hall b (List.mem_cons_self b bs)
    rw [Option.isSome_iff_exists] at hb
    obtain ⟨bc, hbc⟩ := hb
    have hhit := processBlockV1_hit llm cache path b now bc hbc
    have hrest := ih cache (fun b' hb' => hall b' (List.mem_cons_of_mem _ hb'))
    simp only [processAllV1, hhit]
    exact ⟨hrest.1, by rw [hrest.2]⟩

theorem processAllV1_cold (llm : Str → Except Str Str) (path : Str) (now : Int) :
    ∀ (blocks : List Block) (cache : Cache),
      (∀ b ∈ blocks, blockLookup cache path (calculateBlockChecksumPre b) = none) →
      List.Pairwise
        (fun b b' => calculateBlockChecksumPre b ≠ calculateBlockChecksumPre b') blocks →
      (∀ b ∈ blocks, b.type = DirectiveAsk ∨ b.type = DirectiveDo) →
      (processAllV1 false llm path now blocks cache).2.2 = blocks.length := by
  intro blocks
  induction blocks with
  | nil => intro cache _ _ _; rfl
  | cons b bs ih =>
    intro cache hcold hpair htypes
    have hmiss := hcold b (List.mem_cons_self b bs)
    have htyp := htypes b (List.mem_cons_self b bs)
    have hspec := processBlockV1_miss_spec llm cache path b now hmiss htyp
    have hcold' : ∀ b' ∈ bs,
        blockLookup (processBlockV1 false llm cache path b now).2.1 path
          (calculateBlockChecksumPre b') = none := by
      intro b' hb'
      cases hllm : llm (joinLines b.content) with
      | error e =>
        rw [hspec.2.1 e hllm]
        exact hcold b' (List.mem_cons_of_mem _ hb')
      | ok r =>
        have hne : calculateBlockChecksumPre b' ≠ calculateBlockChecksumPre b := by
          have := (List.pairwise_cons.mp hpair).1 b' hb'
          exact fun h => this h.symm
        rw [(hspec.2.2 r hllm).2.2 _ hne]
        exact hcold b' (List.mem_cons_of_mem _ hb')
    have hrest := ih (processBlockV1 false llm cache path b now).2.1 hcold'
      (List.pairwise_cons.mp hpair).2
      (fun b' hb' => htypes b' (List.mem_cons_of_mem _ hb'))
    simp only [processAllV1]
    rw [hrest, hspec.1, List.length_cons]
    omega

/-- C4: with force off, a block whose checksum is in the path's cached
block map is answered from the cache with no executor call (both
`processBlock` variants); a fully warm cache yields zero executor calls
for the whole document, and a fully cold cache with pairwise-distinct
block checksums yields exactly one executor call per block. -/
theorem processBlock_cache_accounting :
    (∀ (llm : Str → Except Str Str) (cache : Cache) (path : Str) (b : Block)
        (index : Nat) (nameFor : Nat → Str) (now : Int) (bc : BlockCache),
      blockLookup cache path (calculateBlockChecksumPre b) = some bc →
      processBlockV1 false llm cache path b now = (.ok bc.result, cache, 0) ∧
      processBlockV2 false false llm cache path b index nameFor now =
        (.ok bc.result, cache, 0)) ∧
    (∀ (llm : Str → Except Str Str) (path : Str) (now : Int)
        (blocks : List Block) (cache : Cache),
      (∀ b ∈ blocks, (blockLookup cache path (calculateBlockChecksumPre b)).isSome = true) →
      (processAllV1 false llm path now blocks cache).2.2 = 0) ∧
    (∀ (llm : Str → Except Str Str) (path : Str) (now : Int)
        (blocks : List Block) (cache : Cache),
      (∀ b ∈ blocks, blockLookup cache path (calculateBlockChecksumPre b) = none) →
      List.Pairwise
        (fun b b' => calculateBlockChecksumPre b ≠ calculateBlockChecksumPre b') blocks →
      (∀ b ∈ blocks, b.type = DirectiveAsk ∨ b.type = DirectiveDo) →
      (processAllV1 false llm path now blocks cache).2.2 = blocks.length) := by
  refine ⟨?_, ?_, ?_⟩
  · intro llm cache path b index nameFor now bc h
    exact ⟨processBlockV1_hit llm cache path b now bc h,
      processBlockV2_hit llm cache path b index nameFor now bc h⟩
  · intro llm path now blocks cache h
    exact (processAllV1_warm llm path now blocks cache h).2
  · intro llm path now blocks cache h1 h2 h3
    exact processAllV1_cold llm path now blocks cache h1 h2 h3

/-- Witness: the hit shortcut on a one-entry cache, and the cold-cache
accounting on a one-block document. -/
theorem processBlock_cache_accounting_witness :
    processBlockV1 false (fun _ => .ok "ans".data)
        [("f.pml".data,
          ⟨[], 0, [(calculateBlockChecksumPre exampleBlock,
            ⟨calculateBlockChecksumPre exampleBlock, "4".data, 0⟩)]⟩)]
        "f.pml".data exampleBlock 0 =
      (.ok "4".data,
        [("f.pml".data,
          ⟨[], 0, [(calculateBlockChecksumPre exampleBlock,
            ⟨calculateBlockChecksumPre exampleBlock, "4".data, 0⟩)]⟩)], 0) ∧
    (processAllV1 false (fun _ => .ok "ans".data) "f.pml".data 0
        [exampleBlock] []).2.2 = 1 := by
  constructor
  · exact (processBlock_cache_accounting.1 (fun _ => .ok "ans".data)
      [("f.pml".data,
        ⟨[], 0, [(calculateBlockChecksumPre exampleBlock,
          ⟨calculateBlockChecksumPre exampleBlock, "4".data, 0⟩)]⟩)]
      "f.pml".data exampleBlock 0 (fun _ => []) 0
      ⟨calculateBlockChecksumPre exampleBlock, "4".data, 0⟩ (by decide)).1
  · exact processBlock_cache_accounting.2.2 (fun _ => .ok "ans".data)
      "f.pml".data 0 [exampleBlock] [] (by decide) (by decide) (by decide)

theorem processBlockV1_shape (force : Bool) (llm : Str → Except Str Str)
    (cache : Cache) (path : Str) (b : Block) (now : Int) :
    (∃ bc, blockLookup cache path (calculateBlockChecksumPre b) = some bc ∧
      processBlockV1 force llm cache path b now = (.ok bc.result, cache, 0)) ∨
    ((processBlockV1 force llm cache path b now).2.1 = cache ∧
      ∃ e, (processBlockV1 force llm cache path b now).1 = .error e) ∨
    (∃ r entry, llm (joinLines b.content) = .ok r ∧
      alGet cache path = some entry ∧
      processBlockV1 force llm cache path b now =
        (.ok r,
          alSet cache path
            { entry with
              blocks := alSet entry.blocks (calculateBlockChecksumPre b)
                ⟨calculateBlockChecksumPre b, r, now⟩ }, 1)) ∨
    (∃ r, llm (joinLines b.content) = .ok r ∧
      alGet cache path = none ∧
      processBlockV1 force llm cache path b now =
        (.ok r,
          alSet cache path
            ⟨[], 0, [(calculateBlockChecksumPre b,
              ⟨calculateBlockChecksumPre b, r, now⟩)]⟩, 1)) := by
  by_cases ht : b.type = DirectiveAsk ∨ b.type = DirectiveDo
  · cases hf : force
    · cases halg : alGet cache path with
      | none =>
        cases hllm : llm (joinLines b.content) with
        | error e =>
          refine Or.inr (Or.inl ⟨?_, "failed to process block: ".data ++ e, ?_⟩) <;>
            simp [processBlockV1, halg, ht, hllm]
        | ok r =>
          refine Or.inr (Or.inr (Or.inr ⟨r, rfl, rfl, ?_⟩))
          simp [processBlockV1, halg, ht, hllm]
      | some entry =>
        cases hhit : alGet entry.blocks (calculateBlockChecksumPre b) with
        | some bc =>
          refine Or.inl ⟨bc, ?_, ?_⟩
          · simp [blockLookup, halg, hhit]
          · simp [processBlockV1, halg, hhit]
        | none =>
          cases hllm : llm (joinLines b.content) with
          | error e =>
            refine Or.inr (Or.inl ⟨?_, "failed to process block: ".data ++ e, ?_⟩) <;>
              simp [processBlockV1, halg, hhit, ht, hllm]
          | ok r =>
            refine Or.inr (Or.inr (Or.inl ⟨r, entry, rfl, rfl, ?_⟩))
            simp [processBlockV1, halg, hhit, ht, hllm]
    · cases halg : alGet cache path with
      | none =>
        cases hllm : llm (joinLines b.content) with
        | error e =>
          refine Or.inr (Or.inl ⟨?_, "failed to process block: ".data ++ e, ?_⟩) <;>
            simp [processBlockV1, halg, ht, hllm]
        | ok r =>
          refine Or.inr (Or.inr (Or.inr ⟨r, rfl, rfl, ?_⟩))
          simp [processBlockV1, halg, ht, hllm]
      | some entry =>
        cases hllm : llm (joinLines b.content) with
        | error e =>
          refine Or.inr (Or.inl ⟨?_, "failed to process block: ".data ++ e, ?_⟩) <;>
            simp [processBlockV1, halg, ht, hllm]
        | ok r =>
          refine Or.inr (Or.inr (Or.inl ⟨r, entry, rfl, rfl, ?_⟩))
          simp [processBlockV1, halg, ht, hllm]
  · cases hf : force
    · cases halg : alGet cache path with
      | none =>
        refine Or.inr (Or.inl ⟨?_, "unknown block type: ".data ++ b.type, ?_⟩) <;>
          simp [processBlockV1, halg, ht]
      | some entry =>
        cases hhit : alGet entry.blocks (calculateBlockChecksumPre b) with
        | some bc =>
          refine Or.inl ⟨bc, ?_, ?_⟩
          · simp [blockLookup, halg, hhit]
          · simp [processBlockV1, halg, hhit]
        | none =>
          refine Or.inr (Or.inl ⟨?_, "unknown block type: ".data ++ b.type, ?_⟩) <;>
            simp [processBlockV1, halg, hhit, ht]
    · cases halg : alGet cache path with
      | none =>
        refine Or.inr (Or.inl ⟨?_, "unknown block type: ".data ++ b.type, ?_⟩) <;>
          simp [processBlockV1, halg, ht]
      | some entry =>
        refine Or.inr (Or.inl ⟨?_, "unknown block type: ".data ++ b.type, ?_⟩) <;>
          simp [processBlockV1, halg, ht]

theorem processBlockV1_cache_mono (force : Bool) (llm : Str → Except Str Str)
    (cache : Cache) (path : Str) (b : Block) (now : Int) (cs : Str)
    (h : (blockLookup cache path cs).isSome = true) :
    (blockLookup (processBlockV1 force llm cache path b now).2.1 path cs).isSome = true := by
  rcases processBlockV1_shape force llm cache path b now with
    ⟨bc, hbc, heq⟩ | ⟨hc, _⟩ | ⟨r, entry, _, halg, heq⟩ | ⟨r, _, halg, heq⟩
  · rw [heq]; exact h
  · rw [hc]; exact h
  · rw [heq]
    unfold blockLookup
    rw [alGet_alSet_same]
    show (alGet (alSet entry.blocks (calculateBlockChecksumPre b)
      ⟨calculateBlockChecksumPre b, r, now⟩) cs).isSome = true
    by_cases hcs : cs = calculateBlockChecksumPre b
    · subst hcs
      rw [alGet_alSet_same]
      rfl
    · rw [alGet_alSet_ne _ _ _ _ hcs]
      unfold blockLookup at h
      rw [halg] at h
      exact h
  · unfold blockLookup at h
    rw [halg] at h
    have h' : (none : Option BlockCache).isSome = true := h
    simp at h'

theorem processBlockV1_ok_cached (force : Bool) (llm : Str → Except Str Str)
    (cache : Cache) (path : Str) (b : Block) (now : Int) (r : Str)
    (h : (processBlockV1 force llm cache path b now).1 = .ok r) :
    (blockLookup (processBlockV1 force llm cache path b now).2.1 path
      (calculateBlockChecksumPre b)).isSome = true := by
  rcases processBlockV1_shape force llm cache path b now with
    ⟨bc, hbc, heq⟩ | ⟨hc, e, he⟩ | ⟨r', entry, _, halg, heq⟩ | ⟨r', _, halg, heq⟩
  · rw [heq]
    simp [hbc]
  · rw [h] at he; cases he
  · rw [heq]
    unfold blockLookup
    rw [alGet_alSet_same]
    show (alGet (alSet entry.blocks (calculateBlockChecksumPre b)
      ⟨calculateBlockChecksumPre b, r', now⟩) (calculateBlockChecksumPre b)).isSome = true
    rw [alGet_alSet_same]
    rfl
  · rw [heq]
    unfold blockLookup
    rw [alGet_alSet_same]
    show (alGet [(calculateBlockChecksumPre b,
      (⟨calculateBlockChecksumPre b, r', now⟩ : BlockCache))]
        (calculateBlockChecksumPre b)).isSome = true
    simp [alGet, List.find?]

theorem processAllV1_mono (force : Bool) (llm : Str → Except Str Str)
    (path : Str) (now : Int) :
    ∀ (blocks : List Block) (cache : Cache) (cs : Str),
      (blockLookup cache path cs).isSome = true →
      (blockLookup (processAllV1 force llm path now blocks cache).2.1 path cs).isSome = true := by
  intro blocks
  induction blocks with
  | nil => intro cache cs h; exact h
  | cons b bs ih =>
    intro cache cs h
    simp only [processAllV1]
    exact ih _ _ (processBlockV1_cache_mono force llm cache path b now cs h)

theorem processAllV1_success_cached (force : Bool) (llm : Str → Except Str Str)
    (path : Str) (now : Int) :
    ∀ (blocks : List Block) (cache : Cache) (j : Nat) (r : Str),
      (processAllV1 force llm path now blocks cache).1[j]? = some (.ok r) →
      ∃ b, blocks[j]? = some b ∧
        (blockLookup (processAllV1 force llm path now blocks cache).2.1 path
          (calculateBlockChecksumPre b)).isSome = true := by
  intro blocks
  induction blocks with
  | nil => intro cache j r h; simp [processAllV1] at h
  | cons b bs ih =>
    intro cache j r h
    simp only [processAllV1] at h ⊢
    cases j with
    | zero =>
      refine ⟨b, by simp, ?_⟩
      have h0 : (processBlockV1 force llm cache path b now).1 = .ok r := by
        simpa using h
      have hc := processBlockV1_ok_cached force llm cache path b now r h0
      exact processAllV1_mono force llm path now bs _ _ hc
    | succ j' =>
      have h' : (processAllV1 force llm path now bs
          (processBlockV1 force llm cache path b now).2.1).1[j']? = some (.ok r) := by
        simpa using h
      obtain ⟨b', hb', hc⟩ := ih _ j' r h'
      exact ⟨b', by simpa using hb', hc⟩

theorem indexedFailures_head (rs : List (Except Str Str)) :
    ∀ (k i : Nat) (e : Str),
      (indexedFailures rs k).head? = some (i, e) →
      k ≤ i ∧ rs[i - k]? = some (.error e) ∧
        ∀ j, j < i - k → ∃ v, rs[j]? = some (.ok v) := by
  induction rs with
  | nil => intro k i e h; simp [indexedFailures] at h
  | cons x rest ih =>
    intro k i e h
    cases x with
    | error e' =>
      simp only [indexedFailures, List.head?_cons, Option.some.injEq, Prod.mk.injEq] at h
      obtain ⟨hi, he⟩ := h
      subst hi
      subst he
      refine ⟨le_refl _, ?_, ?_⟩
      · simp
      · intro j hj
        omega
    | ok v =>
      simp only [indexedFailures] at h
      obtain ⟨hk, hrest, hprev⟩ := ih (k + 1) i e h
      refine ⟨by omega, ?_, ?_⟩
      · have : i - k = (i - (k + 1)) + 1 := by omega
        rw [this]
        simpa using hrest
      · intro j hj
        cases j with
        | zero => exact ⟨v, by simp⟩
        | succ j' =>
          have : j' < i - (k + 1) := by omega
          obtain ⟨v', hv'⟩ := hprev j' this
          exact ⟨v', by simpa using hv'⟩

theorem firstFailure_spec (rs : List (Except Str Str)) (i : Nat) (e : Str)
    (h : firstFailure rs = some (i, e)) :
    rs[i]? = some (.error e) ∧ ∀ j, j < i → ∃ v, rs[j]? = some (.ok v) := by
  have := indexedFailures_head rs 0 i e h
  simpa using this

theorem pyPath_ne (path : Str) : path ≠ path ++ ".py".data := by
  intro h
  have := congrArg List.length h
  simp at this

/-- C3: when any block's job fails (executor error, including one induced
by context cancellation, which the workers observe as an error from the
executor call), the first `ProcessFile` variant returns the failure of the
first failing block, wrapped as a block-processing error, and does not
rewrite the source document — its content after the run is exactly the
content before — while every block that completed successfully has its
result present in the cache; the second variant, when its context is
cancelled before the wait completes, returns the cancellation error and
leaves the whole file system untouched. -/
theorem processFile_abort_keeps_cache :
    (∀ (force : Bool) (llm : Str → Except Str Str) (names : Nat → Str) (now : Int)
        (st : PState) (path content : Str) (blocks : List Block) (i : Nat) (e : Str),
      skipPathV1 path = false →
      alGet st.fs path = some content →
      parseBlocksA content = .ok blocks →
      firstFailure (processAllV1 force llm path now blocks st.cache).1 = some (i, e) →
      (processFileV1 force llm names now st path).1 = .error (.blockFail i e) ∧
      alGet (processFileV1 force llm names now st path).2.fs path = some content ∧
      ((processAllV1 force llm path now blocks st.cache).1[i]? = some (Except.error e) ∧
        ∀ j, j < i →
          ∃ v, (processAllV1 force llm path now blocks st.cache).1[j]? = some (Except.ok v)) ∧
      (∀ (j : Nat) (r : Str), (processAllV1 force llm path now blocks st.cache).1[j]? = some (Except.ok r) →
        ∃ b, blocks[j]? = some b ∧
          (blockLookup (processFileV1 force llm names now st path).2.cache path
            (calculateBlockChecksumPre b)).isSome = true)) ∧
    (∀ (force : Bool) (llm : Str → Except Str Str) (nameFor : Nat → Str) (now : Int)
        (st : PState) (path content : Str) (blocks : List Block),
      skipPathV2 path = false →
      alGet st.fs path = some content →
      parseBlocksB content = .ok blocks →
      blocks.isEmpty = false →
      (processFileV2 true force llm nameFor now st path).1 = .error .cancelled ∧
      (processFileV2 true force llm nameFor now st path).2.fs = st.fs) := by
  constructor
  · intro force llm names now st path content blocks i e hskip hfs hparse hfail
    have hrun : processFileV1 force llm names now st path =
        (.error (.blockFail i e),
          ⟨alSet st.fs (path ++ ".py".data) (replaceBlocksInContent content blocks),
            (processAllV1 force llm path now blocks st.cache).2.1⟩) := by
      simp [processFileV1, hskip, hfs, hparse, hfail]
    refine ⟨by rw [hrun], ?_, ?_, ?_⟩
    · rw [hrun]
      show alGet (alSet st.fs (path ++ ".py".data) _) path = some content
      rw [alGet_alSet_ne _ _ _ _ (pyPath_ne path)]
      exact hfs
    · exact firstFailure_spec _ i e hfail
    · intro j r hjr
      obtain ⟨b, hb, hc⟩ := processAllV1_success_cached force llm path now blocks st.cache j r hjr
      exact ⟨b, hb, by rw [hrun]; exact hc⟩
  · intro force llm nameFor now st path content blocks hskip hfs hparse hne
    constructor <;> simp [processFileV2, hskip, hfs, hparse, hne]

/-- Witness: a one-block document whose executor fails; the run returns the
wrapped block failure and the document is unchanged, and a cancelled
second-variant run returns the cancellation error. -/
theorem processFile_abort_keeps_cache_witness :
    (processFileV1 false (fun _ => .error "boom".data) (fun _ => []) 0
        ⟨[("d.pml".data, exampleDoc)], []⟩ "d.pml".data).1 =
      .error (.blockFail 0 ("failed to process block: boom".data)) ∧
    alGet (processFileV1 false (fun _ => .error "boom".data) (fun _ => []) 0
        ⟨[("d.pml".data, exampleDoc)], []⟩ "d.pml".data).2.fs "d.pml".data =
      some exampleDoc ∧
    (processFileV2 true false (fun _ => .error "boom".data) (fun _ => []) 0
        ⟨[("d.pml".data, exampleDoc)], []⟩ "d.pml".data).1 = .error .cancelled := by
  have h1 := processFile_abort_keeps_cache.1 false (fun _ => .error "boom".data)
    (fun _ => []) 0 ⟨[("d.pml".data, exampleDoc)], []⟩ "d.pml".data exampleDoc
    [exampleBlock] 0 ("failed to process block: boom".data)
    (by decide) (by decide) (by decide) (by decide)
  have h2 := processFile_abort_keeps_cache.2 false (fun _ => .error "boom".data)
    (fun _ => []) 0 ⟨[("d.pml".data, exampleDoc)], []⟩ "d.pml".data exampleDoc
    [exampleBlock] (by decide) (by decide) (by decide) (by decide)
  exact ⟨h1.1, h1.2.1, h2.1⟩

theorem genLoop_spec (sf : Str) (bi : Nat) (bt : Str) :
    ∀ (fuel : Nat) (used : List Str) (counter : Nat) (nm : Str)
      (used' : List Str) (c' : Nat),
      genLoop sf bi bt fuel used counter = some (nm, used', c') →
      nm ∉ used ∧ used' = nm :: used := by
  intro fuel
  induction fuel with
  | zero => intro used counter nm used' c' h; cases h
  | succ fuel ih =>
    intro used counter nm used' c' h
    simp only [genLoop] at h
    by_cases hc : used.contains (mkCandidate sf bi bt counter)
    · rw [if_pos hc] at h
      exact ih used (counter + 1) nm used' c' h
    · rw [if_neg hc] at h
      simp only [Option.some.injEq, Prod.mk.injEq] at h
      obtain ⟨h1, h2, _⟩ := h
      subst h1
      exact ⟨by simpa using hc, h2.symm⟩

theorem generateUniqueResultName_spec (st : NameState) (sf : Str) (bi : Nat)
    (bt : Str) (fuel : Nat) (nm : Str) (st' : NameState)
    (h : generateUniqueResultName st sf bi bt fuel = some (nm, st')) :
    nm ∉ st.usedNames ∧ st'.usedNames = nm :: st.usedNames := by
  simp only [generateUniqueResultName] at h
  cases hl : genLoop sf bi bt fuel st.usedNames
      ((alGet st.counters (counterKey sf bi bt)).getD 0) with
  | none => rw [hl] at h; cases h
  | some v =>
    rw [hl] at h
    obtain ⟨nm', used', c'⟩ := v
    simp only [Option.some.injEq] at h
    have hspec := genLoop_spec sf bi bt fuel st.usedNames _ nm' used' c' hl
    obtain ⟨hn, hs⟩ : nm' = nm ∧
        ({ usedNames := used', counters := alSet st.counters (counterKey sf bi bt) c' } :
          NameState) = st' := ⟨congrArg Prod.fst h, congrArg Prod.snd h⟩
    subst hn
    rw [← hs]
    exact ⟨hspec.1, hspec.2⟩

/-- C7: across any sequence of calls to the `results.go`
`generateUniqueResultName` (serialized by `usedNamesMu`; deletion of
artifact files is irrelevant, the check is against the in-memory
process-lifetime set), the returned names are pairwise distinct and none
repeats a name recorded earlier in the state. -/
theorem generated_names_unique :
    ∀ (fuel : Nat) (reqs : List (Str × Nat × Str)) (st : NameState),
      (runGen st reqs fuel).1.Pairwise (· ≠ ·) ∧
      ∀ nm ∈ (runGen st reqs fuel).1, nm ∉ st.usedNames := by
  intro fuel reqs
  induction reqs with
  | nil => intro st; simp [runGen]
  | cons req rest ih =>
    intro st
    obtain ⟨sf, bi, bt⟩ := req
    simp only [runGen]
    cases hg : generateUniqueResultName st sf bi bt fuel with
    | none => exact ih st
    | some v =>
      obtain ⟨nm, st'⟩ := v
      have hspec := generateUniqueResultName_spec st sf bi bt fuel nm st' hg
      have hrest := ih st'
      simp only [List.pairwise_cons, List.mem_cons]
      refine ⟨⟨?_, hrest.1⟩, ?_⟩
      · intro nm' hnm'
        have := hrest.2 nm' hnm'
        rw [hspec.2] at this
        intro heq
        exact this (heq ▸ List.mem_cons_self nm st.usedNames)
      · rintro nm' (rfl | hnm')
        · exact hspec.1
        · have := hrest.2 nm' hnm'
          rw [hspec.2] at this
          exact fun hmem => this (List.mem_cons_of_mem _ hmem)

theorem alGet_map_snd {α β : Type} (l : List (Str × α)) (f : α → β) (k : Str) :
    alGet (l.map (fun p => (p.fst, f p.snd))) k = (alGet l k).map f := by
  induction l with
  | nil => rfl
  | cons p rest ih =>
    by_cases hp : p.fst = k
    · simp [alGet, List.find?_cons_of_pos, hp]
    · simp only [List.map_cons]
      unfold alGet
      rw [List.find?_cons_of_neg _ (by simp [hp]),
        List.find?_cons_of_neg _ (by simp [hp])]
      exact ih

theorem processBlockV1_no_delete (force : Bool) (llm : Str → Except Str Str)
    (cache : Cache) (path : Str) (b : Block) (now : Int) (path' cs : Str)
    (h : (blockLookup cache path' cs).isSome = true) :
    (blockLookup (processBlockV1 force llm cache path b now).2.1 path' cs).isSome = true := by
  by_cases hp : path' = path
  · subst hp
    exact processBlockV1_cache_mono force llm cache path' b now cs h
  · rcases processBlockV1_shape force llm cache path b now with
      ⟨bc, _, heq⟩ | ⟨hc, _⟩ | ⟨r, entry, _, _, heq⟩ | ⟨r, _, _, heq⟩
    · rw [heq]; exact h
    · rw [hc]; exact h
    · rw [heq]
      unfold blockLookup at h ⊢
      rw [alGet_alSet_ne _ _ _ _ hp]
      exact h
    · rw [heq]
      unfold blockLookup at h ⊢
      rw [alGet_alSet_ne _ _ _ _ hp]
      exact h

/-- C8: loading the cache prunes, per document entry, exactly the block
results older than the 24-hour retention window: what each path maps to
after the load is a function of that path's stored entry alone, every
surviving block result is within the window, a block result survives
exactly when it was stored and within the window, and the in-run cache
writes of `processBlock` never remove an existing block entry (pruning
happens only at load). -/
theorem loadCache_ttl_pruning :
    (∀ (now : Int) (entries : Cache) (path : Str),
      alGet (loadCache now (some entries)) path =
        (alGet entries path).map (pruneEntry now)) ∧
    (∀ (now : Int) (e : CacheEntry) (cs : Str) (bc : BlockCache),
      ((cs, bc) ∈ (pruneEntry now e).blocks ↔
        (cs, bc) ∈ e.blocks ∧ now - bc.modTime ≤ retention)) ∧
    (∀ (now : Int) (entries : Cache) (path : Str) (e : CacheEntry)
        (cs : Str) (bc : BlockCache),
      alGet (loadCache now (some entries)) path = some e →
      (cs, bc) ∈ e.blocks →
      now - bc.modTime ≤ retention) ∧
    (∀ (force : Bool) (llm : Str → Except Str Str) (cache : Cache)
        (path : Str) (b : Block) (now : Int) (path' cs : Str),
      (blockLookup cache path' cs).isSome = true →
      (blockLookup (processBlockV1 force llm cache path b now).2.1 path' cs).isSome = true) := by
  have hmap : ∀ (now : Int) (entries : Cache) (path : Str),
      alGet (loadCache now (some entries)) path =
        (alGet entries path).map (pruneEntry now) := by
    intro now entries path
    unfold loadCache
    exact alGet_map_snd entries (pruneEntry now) path
  have hmem : ∀ (now : Int) (e : CacheEntry) (cs : Str) (bc : BlockCache),
      ((cs, bc) ∈ (pruneEntry now e).blocks ↔
        (cs, bc) ∈ e.blocks ∧ now - bc.modTime ≤ retention) := by
    intro now e cs bc
    unfold pruneEntry
    simp only [List.mem_filter]
    constructor
    · rintro ⟨hm, hp⟩
      refine ⟨hm, ?_⟩
      have hp' : ¬ (now - bc.modTime > retention) := of_decide_eq_true hp
      omega
    · rintro ⟨hm, hle⟩
      exact ⟨hm, decide_eq_true (by omega)⟩
  refine ⟨hmap, hmem, ?_, ?_⟩
  · intro now entries path e cs bc hload hm
    rw [hmap] at hload
    cases halg : alGet entries path with
    | none => rw [halg] at hload; cases hload
    | some e0 =>
      rw [halg] at hload
      have he : pruneEntry now e0 = e := by simpa using hload
      subst he
      exact ((hmem now e0 cs bc).mp hm).2
  · intro force llm cache path b now path' cs h
    exact processBlockV1_no_delete force llm cache path b now path' cs h

/-- Witness: loading at a time just past the window drops a block entry
written at time 0 and keeps a fresh one, and an in-run cache write
preserves an existing entry. -/
theorem loadCache_ttl_pruning_witness :
    alGet (loadCache (retention + 5)
        (some [("a".data,
          ⟨[], 0, [("k1".data, ⟨"k1".data, "r1".data, 0⟩),
                   ("k2".data, ⟨"k2".data, "r2".data, retention + 5⟩)]⟩)]))
      "a".data =
      (alGet [("a".data,
          (⟨[], 0, [("k1".data, ⟨"k1".data, "r1".data, 0⟩),
                   ("k2".data, ⟨"k2".data, "r2".data, retention + 5⟩)]⟩ : CacheEntry))]
        "a".data).map (pruneEntry (retention + 5)) ∧
    (retention + 5) - (retention + 5) ≤ retention ∧
    (blockLookup (processBlockV1 false (fun _ => .ok [])
        [("p".data, ⟨[], 0, [("k".data, ⟨"k".data, "r".data, 0⟩)]⟩)]
        "p".data exampleBlock 0).2.1 "p".data "k".data).isSome = true := by
  refine ⟨loadCache_ttl_pruning.1 (retention + 5) _ _, ?_, ?_⟩
  · exact loadCache_ttl_pruning.2.2.1 (retention + 5)
      [("a".data,
        ⟨[], 0, [("k1".data, ⟨"k1".data, "r1".data, 0⟩),
                 ("k2".data, ⟨"k2".data, "r2".data, retention + 5⟩)]⟩)]
      "a".data
      ⟨[], 0, [("k2".data, ⟨"k2".data, "r2".data, retention + 5⟩)]⟩
      "k2".data ⟨"k2".data, "r2".data, retention + 5⟩
      (by decide) (by decide)
  · exact loadCache_ttl_pruning.2.2.2 false (fun _ => .ok [])
      [("p".data, ⟨[], 0, [("k".data, ⟨"k".data, "r".data, 0⟩)]⟩)]
      "p".data exampleBlock 0 "p".data "k".data (by decide)

theorem splitLines_no_newline : ∀ (s : Str), ∀ l ∈ splitLines s, '\n' ∉ l := by
  intro s
  induction s with
  | nil =>
    intro l hl
    simp only [splitLines, List.mem_singleton] at hl
    subst hl
    simp
  | cons c rest ih =>
    intro l hl
    simp only [splitLines] at hl
    by_cases hc : c = '\n'
    · rw [if_pos hc] at hl
      rcases List.mem_cons.mp hl with rfl | hl'
      · simp
      · exact ih l hl'
    · rw [if_neg hc] at hl
      cases hsp : splitLines rest with
      | nil => rw [hsp] at hl; simp at hl; subst hl; simp [hc, Ne.symm hc]
      | cons l0 ls =>
        rw [hsp] at hl
        rcases List.mem_cons.mp hl with rfl | hl'
        · intro hmem
          rcases List.mem_cons.mp hmem with heq | hmem'
          · exact hc heq.symm
          · exact ih l0 (hsp ▸ List.mem_cons_self l0 ls) hmem'
        · exact ih l (hsp ▸ List.mem_cons_of_mem l0 hl')

theorem splitLines_ne_nil (s : Str) : splitLines s ≠ [] := by
  cases s with
  | nil => simp [splitLines]
  | cons c rest =>
    simp only [splitLines]
    by_cases hc : c = '\n'
    · rw [if_pos hc]; simp
    · rw [if_neg hc]
      cases splitLines rest <;> simp

theorem splitLines_of_no_newline : ∀ (l : Str), '\n' ∉ l → splitLines l = [l] := by
  intro l
  induction l with
  | nil => intro _; rfl
  | cons c rest ih =>
    intro h
    have hc : c ≠ '\n' := fun hc => h (hc ▸ List.mem_cons_self c rest)
    have hrest : '\n' ∉ rest := fun hm => h (List.mem_cons_of_mem c hm)
    simp only [splitLines, if_neg hc, ih hrest]

theorem splitLines_append_newline : ∀ (l : Str) (r : Str), '\n' ∉ l →
    splitLines (l ++ '\n' :: r) = l :: splitLines r := by
  intro l
  induction l with
  | nil => intro r _; simp [splitLines]
  | cons c rest ih =>
    intro r h
    have hc : c ≠ '\n' := fun hc => h (hc ▸ List.mem_cons_self c rest)
    have hrest : '\n' ∉ rest := fun hm => h (List.mem_cons_of_mem c hm)
    simp only [List.cons_append, splitLines, if_neg hc, List.append_eq]
    rw [ih r hrest]

theorem splitLines_joinLines : ∀ (ls : List Str), ls ≠ [] →
    (∀ l ∈ ls, '\n' ∉ l) → splitLines (joinLines ls) = ls := by
  intro ls
  induction ls with
  | nil => intro h; exact absurd rfl h
  | cons l rest ih =>
    intro _ hnl
    cases rest with
    | nil =>
      simp only [joinLines]
      exact splitLines_of_no_newline l (hnl l (List.mem_cons_self l []))
    | cons l' rest' =>
      simp only [joinLines]
      rw [splitLines_append_newline l _ (hnl l (List.mem_cons_self l _))]
      rw [ih (by simp) (fun x hx => hnl x (List.mem_cons_of_mem l hx))]

theorem dropWhile_goIsSpace_cons (c : Char) (t : Str) (hc : goIsSpace c = false) :
    (c :: t).dropWhile goIsSpace = c :: t := by
  simp [List.dropWhile_cons, hc]

theorem trimSpace_cons_last (c : Char) (mid : Str) (d : Char)
    (hc : goIsSpace c = false) (hd : goIsSpace d = false) :
    trimSpace (c :: (mid ++ [d])) = c :: (mid ++ [d]) := by
  unfold trimSpace
  rw [dropWhile_goIsSpace_cons _ _ hc]
  rw [show (c :: (mid ++ [d])).reverse = d :: (mid.reverse ++ [c]) by simp]
  rw [dropWhile_goIsSpace_cons _ _ hd]
  simp

theorem refLinkV1_decomp (nm res : Str) :
    refLinkV1 nm res =
      ':' :: (("--(r/".data ++ nm ++ ":\"".data ++ res ++ ['"']) ++ [')']) := by
  simp [refLinkV1]

theorem trimSpace_refLinkV1 (nm res : Str) :
    trimSpace (refLinkV1 nm res) = refLinkV1 nm res := by
  rw [refLinkV1_decomp]
  exact trimSpace_cons_last _ _ _ (by decide) (by decide)

theorem refLinkV1_end_pre (nm res : Str) :
    DirectiveEnd.isPrefixOf (refLinkV1 nm res) = true := by
  rw [refLinkV1_decomp]
  simp [DirectiveEnd, List.isPrefixOf]

theorem nil_ne_ask : (([] : Str) = DirectiveAsk) = False := eq_false (by decide)

theorem nil_ne_do : (([] : Str) = DirectiveDo) = False := eq_false (by decide)

theorem nil_ne_end : (([] : Str) = DirectiveEnd) = False := eq_false (by decide)

theorem end_not_pre_nil : DirectiveEnd.isPrefixOf ([] : Str) = false := by decide

theorem ask_ne_end' : (DirectiveAsk = DirectiveEnd) = False := eq_false (by decide)

theorem do_ne_end' : (DirectiveDo = DirectiveEnd) = False := eq_false (by decide)

theorem end_not_pre_ask : DirectiveEnd.isPrefixOf DirectiveAsk = false := by decide

theorem end_not_pre_do : DirectiveEnd.isPrefixOf DirectiveDo = false := by decide

theorem end_pre_end : DirectiveEnd.isPrefixOf DirectiveEnd = true := by decide

theorem end_ne_ask' : (DirectiveEnd = DirectiveAsk) = False := eq_false (by decide)

theorem end_ne_do' : (DirectiveEnd = DirectiveDo) = False := eq_false (by decide)

theorem ask_isEmpty : (DirectiveAsk : Str).isEmpty = false := by decide

theorem do_isEmpty : (DirectiveDo : Str).isEmpty = false := by decide

theorem cleanLine_not_pre {l : Str} (hcl : cleanLine l = true)
    (hne : ¬ trimSpace l = DirectiveEnd) :
    DirectiveEnd.isPrefixOf (trimSpace l) = false := by
  unfold cleanLine at hcl
  cases hp : DirectiveEnd.isPrefixOf (trimSpace l)
  · rfl
  · rw [hp] at hcl
    simp at hcl
    exact absurd hcl hne

theorem lockstepAB (blocks : List Block) (results : List Str) (names : Nat → Str) :
    ∀ (lines : List Str), (∀ l ∈ lines, cleanLine l = true) →
    ∀ (k i posA posB : Nat) (curA curB : Option Block) (accA accB bsA : List Block),
      curA.map (fun b => (b.type, b.content)) = curB.map (fun b => (b.type, b.content)) →
      accA.map (fun b => (b.type, b.content)) = accB.map (fun b => (b.type, b.content)) →
      parseAGo lines i posA curA accA = .ok bsA →
      ∃ bsB, parseBGo (updV1Go blocks results names lines k) i posB curB accB = .ok bsB ∧
        bsB.map (fun b => (b.type, b.content)) = bsA.map (fun b => (b.type, b.content)) := by
  intro lines
  induction lines with
  | nil =>
    intro _ k i posA posB curA curB accA accB bsA hcur hacc hA
    cases curA with
    | some bA => simp [parseAGo] at hA
    | none =>
      have hcurB : curB = none := by
        cases curB with
        | none => rfl
        | some bB => simp at hcur
      subst hcurB
      simp only [parseAGo, Except.ok.injEq] at hA
      subst hA
      exact ⟨accB, by simp [updV1Go, parseBGo], hacc.symm⟩
  | cons l rest ih =>
    intro hclean k i posA posB curA curB accA accB bsA hcur hacc hA
    have hcl := hclean l (List.mem_cons_self _ _)
    have hcleanRest : ∀ x ∈ rest, cleanLine x = true :=
      fun x hx => hclean x (List.mem_cons_of_mem l hx)
    by_cases hblank : trimSpace l = []
    · -- blank line: copied verbatim, plain content for both parsers
      simp only [parseAGo, hblank, List.isEmpty_nil, if_true] at hA
      have hupd : updV1Go blocks results names (l :: rest) k =
          l :: updV1Go blocks results names rest k := by
        simp only [updV1Go, hblank, nil_ne_ask, nil_ne_do, nil_ne_end]
        simp
      rw [hupd]
      cases curA with
      | none =>
        have hcurB : curB = none := by
          cases curB with
          | none => rfl
          | some bB => simp at hcur
        subst hcurB
        obtain ⟨bsB, hB, hmap⟩ := ih hcleanRest k (i+1) (posA + (l.length + 1))
          (posB + (l.length + 1)) none none accA accB bsA rfl hacc hA
        refine ⟨bsB, ?_, hmap⟩
        simp only [parseBGo, hblank, end_not_pre_nil, nil_ne_ask, nil_ne_do]
        simpa using hB
      | some bA =>
        cases curB with
        | none => simp at hcur
        | some bB =>
          simp at hcur
          have hcong : Option.map (fun b : Block => (b.type, b.content))
              (some { bA with content := bA.content ++ [l] }) =
              Option.map (fun b : Block => (b.type, b.content))
              (some { bB with content := bB.content ++ [l] }) := by
            simp [hcur.1, hcur.2]
          obtain ⟨bsB, hB, hmap⟩ := ih hcleanRest k (i+1) (posA + (l.length + 1))
            (posB + (l.length + 1)) (some { bA with content := bA.content ++ [l] })
            (some { bB with content := bB.content ++ [l] }) accA accB bsA
            hcong hacc hA
          refine ⟨bsB, ?_, hmap⟩
          simp only [parseBGo, hblank, end_not_pre_nil, nil_ne_ask, nil_ne_do]
          simpa using hB
    · by_cases hend : trimSpace l = DirectiveEnd
      · -- end-marker line: A closes; the rewrite replaces it (or keeps it);
        -- B closes on either form
        simp only [parseAGo, hend, dend_isEmpty, Bool.false_eq_true, if_false,
          if_true] at hA
        cases curA with
        | none => simp at hA
        | some bA =>
          cases curB with
          | none => simp at hcur
          | some bB =>
            simp at hcur
            have hA' : parseAGo rest (i+1) (posA + (l.length + 1)) none
                (accA ++ [{ bA with endPos := posA + l.length }]) = .ok bsA := by
              simpa using hA
            have hacc' : ∀ (x : Block),
                (accA ++ [{ bA with endPos := posA + l.length }]).map
                  (fun b : Block => (b.type, b.content)) =
                (accB ++ [{ bB with endPos := posB + x.endPos }]).map
                  (fun b : Block => (b.type, b.content)) := by
              intro x
              simp only [List.map_append, List.map_cons, List.map_nil]
              rw [hacc]
              simp [hcur.1, hcur.2]
            -- the rewritten head line
            by_cases hk : k < blocks.length ∧ k < results.length
            · have hupd : updV1Go blocks results names (l :: rest) k =
                  refLinkV1 (names k) (results.getD k []) ::
                    updV1Go blocks results names rest (k + 1) := by
                simp only [updV1Go, hend, end_ne_ask', end_ne_do']
                simp [hk]
              rw [hupd]
              obtain ⟨bsB, hB, hmap⟩ := ih hcleanRest (k+1) (i+1)
                (posA + (l.length + 1))
                (posB + ((refLinkV1 (names k) (results.getD k [])).length + 1)) none none
                (accA ++ [{ bA with endPos := posA + l.length }])
                (accB ++ [{ bB with endPos := posB +
                  (refLinkV1 (names k) (results.getD k [])).length }]) bsA rfl
                (by
                  have := hacc' { bA with endPos :=
                    (refLinkV1 (names k) (results.getD k [])).length }
                  simpa using this) hA'
              refine ⟨bsB, ?_, hmap⟩
              simp only [parseBGo, trimSpace_refLinkV1, refLinkV1_end_pre, if_true]
              exact hB
            · have hupd : updV1Go blocks results names (l :: rest) k =
                  l :: updV1Go blocks results names rest (k + 1) := by
                simp only [updV1Go, hend, end_ne_ask', end_ne_do']
                simp [hk]
              rw [hupd]
              obtain ⟨bsB, hB, hmap⟩ := ih hcleanRest (k+1) (i+1)
                (posA + (l.length + 1)) (posB + (l.length + 1)) none none
                (accA ++ [{ bA with endPos := posA + l.length }])
                (accB ++ [{ bB with endPos := posB + l.length }]) bsA rfl
                (by
                  have := hacc' { bA with endPos := l.length }
                  simpa using this) hA'
              refine ⟨bsB, ?_, hmap⟩
              simp only [parseBGo, hend, end_pre_end, if_true]
              exact hB
      · have hpre : DirectiveEnd.isPrefixOf (trimSpace l) = false :=
          cleanLine_not_pre hcl hend
        by_cases hod : trimSpace l = DirectiveAsk ∨ trimSpace l = DirectiveDo
        · -- opener line: copied verbatim; both open a fresh block
          cases curA with
          | some bA =>
            have hstepA : parseAGo (l :: rest) i posA (some bA) accA =
                .error (.nesting (i+1)) := by
              rcases hod with h | h <;>
                simp [parseAGo, h, ask_isEmpty, do_isEmpty, ask_ne_end', do_ne_end',
                  end_not_pre_ask, end_not_pre_do]
            rw [hstepA] at hA
            cases hA
          | none =>
            have hstepA : parseAGo (l :: rest) i posA none accA =
                parseAGo rest (i+1) (posA + (l.length + 1))
                  (some { type := trimSpace l, content := [], start := posA, endPos := 0 })
                  accA := by
              rcases hod with h | h <;>
                simp [parseAGo, h, ask_isEmpty, do_isEmpty, ask_ne_end', do_ne_end',
                  end_not_pre_ask, end_not_pre_do]
            rw [hstepA] at hA
            have hcurB : curB = none := by
              cases curB with
              | none => rfl
              | some bB => simp at hcur
            subst hcurB
            have hupd : updV1Go blocks results names (l :: rest) k =
                l :: updV1Go blocks results names rest k := by
              simp only [updV1Go, hod, if_true]
            rw [hupd]
            obtain ⟨bsB, hB, hmap⟩ := ih hcleanRest k (i+1) (posA + (l.length + 1))
              (posB + (l.length + 1))
              (some { type := trimSpace l, content := [], start := posA, endPos := 0 })
              (some { type := trimSpace l, content := [], start := posB, endPos := 0 })
              accA accB bsA (by simp) hacc hA
            refine ⟨bsB, ?_, hmap⟩
            have hBstep : parseBGo (l :: updV1Go blocks results names rest k) i posB
                none accB = parseBGo (updV1Go blocks results names rest k) (i+1)
                  (posB + (l.length + 1))
                  (some { type := trimSpace l, content := [], start := posB, endPos := 0 })
                  accB := by
              rcases hod with h | h <;>
                simp [parseBGo, h, end_not_pre_ask, end_not_pre_do]
            rw [hBstep]
            exact hB
        · -- plain text line: copied; content for both when a block is open
          have hbl : (trimSpace l).isEmpty = false := by
            cases h : trimSpace l with
            | nil => exact absurd h hblank
            | cons a t => rfl
          have hupd : updV1Go blocks results names (l :: rest) k =
              l :: updV1Go blocks results names rest k := by
            simp only [updV1Go]
            simp [hod, hend]
          rw [hupd]
          cases curA with
          | none =>
            have hstepA : parseAGo (l :: rest) i posA none accA =
                parseAGo rest (i+1) (posA + (l.length + 1)) none accA := by
              simp [parseAGo, hbl, hend, hpre, hod]
            rw [hstepA] at hA
            have hcurB : curB = none := by
              cases curB with
              | none => rfl
              | some bB => simp at hcur
            subst hcurB
            have hstepB : parseBGo (l :: updV1Go blocks results names rest k) i posB
                none accB = parseBGo (updV1Go blocks results names rest k) (i+1)
                  (posB + (l.length + 1)) none accB := by
              simp [parseBGo, hpre, hod]
            rw [hstepB]
            exact ih hcleanRest k (i+1) (posA + (l.length + 1))
              (posB + (l.length + 1)) none none accA accB bsA rfl hacc hA
          | some bA =>
            cases curB with
            | none => simp at hcur
            | some bB =>
              simp at hcur
              have hstepA : parseAGo (l :: rest) i posA (some bA) accA =
                  parseAGo rest (i+1) (posA + (l.length + 1))
                    (some { bA with content := bA.content ++ [l] }) accA := by
                simp [parseAGo, hbl, hend, hpre, hod]
              rw [hstepA] at hA
              have hstepB : parseBGo (l :: updV1Go blocks results names rest k) i posB
                  (some bB) accB = parseBGo (updV1Go blocks results names rest k) (i+1)
                    (posB + (l.length + 1))
                    (some { bB with content := bB.content ++ [l] }) accB := by
                simp [parseBGo, hpre, hod]
              rw [hstepB]
              have hcong : Option.map (fun b : Block => (b.type, b.content))
                  (some { bA with content := bA.content ++ [l] }) =
                  Option.map (fun b : Block => (b.type, b.content))
                  (some { bB with content := bB.content ++ [l] }) := by
                simp [hcur.1, hcur.2]
              exact ih hcleanRest k (i+1) (posA + (l.length + 1))
                (posB + (l.length + 1)) (some { bA with content := bA.content ++ [l] })
                (some { bB with content := bB.content ++ [l] }) accA accB bsA
                hcong hacc hA

theorem updV1Go_ne_nil (blocks : List Block) (results : List Str)
    (names : Nat → Str) (l : Str) (ls : List Str) (k : Nat) :
    updV1Go blocks results names (l :: ls) k ≠ [] := by
  simp only [updV1Go]
  split
  · simp
  · split <;> simp

theorem refLinkV1_decomp2 (nm res : Str) :
    refLinkV1 nm res =
      [':', '-', '-', '(', 'r', '/'] ++ nm ++ [':', '"'] ++ res ++ ['"', ')'] := by
  simp [refLinkV1]

theorem refLinkV1_no_newline (nm res : Str) (h1 : '\n' ∉ nm) (h2 : '\n' ∉ res) :
    '\n' ∉ refLinkV1 nm res := by
  rw [refLinkV1_decomp2]
  intro hmem
  simp only [List.mem_append, List.mem_cons, List.mem_singleton] at hmem
  rcases hmem with ((((h | h) | h) | h) | h)
  · rcases h with h | h | h | h | h | h | h <;> simp at h
  · exact h1 h
  · rcases h with h | h | h <;> simp at h
  · exact h2 h
  · rcases h with h | h | h <;> simp at h

theorem no_newline_getD (results : List Str)
    (hres : ∀ r ∈ results, '\n' ∉ r) :
    ∀ (k : Nat), '\n' ∉ results.getD k [] := by
  induction results with
  | nil => intro k; cases k <;> simp [List.getD]
  | cons r rs ih =>
    intro k
    cases k with
    | zero => simpa [List.getD] using hres r (List.mem_cons_self r rs)
    | succ k' =>
      simp only [List.getD_cons_succ]
      exact ih (fun x hx => hres x (List.mem_cons_of_mem _ hx)) k'

theorem updV1Go_no_newline (blocks : List Block) (results : List Str)
    (names : Nat → Str) (hnames : ∀ k, '\n' ∉ names k)
    (hres : ∀ r ∈ results, '\n' ∉ r) :
    ∀ (ls : List Str) (k : Nat), (∀ l ∈ ls, '\n' ∉ l) →
      ∀ l' ∈ updV1Go blocks results names ls k, '\n' ∉ l' := by
  intro ls
  induction ls with
  | nil => intro k _ l' hl'; simp [updV1Go] at hl'
  | cons l rest ih =>
    intro k hnl l' hl'
    have hl : '\n' ∉ l := hnl l (List.mem_cons_self _ _)
    have hrest : ∀ x ∈ rest, '\n' ∉ x := fun x hx => hnl x (List.mem_cons_of_mem _ hx)
    simp only [updV1Go] at hl'
    by_cases hod : trimSpace l = DirectiveAsk ∨ trimSpace l = DirectiveDo
    · rw [if_pos hod] at hl'
      rcases List.mem_cons.mp hl' with rfl | h
      · exact hl
      · exact ih k hrest l' h
    · rw [if_neg hod] at hl'
      by_cases hend : trimSpace l = DirectiveEnd
      · rw [if_pos hend] at hl'
        rcases List.mem_cons.mp hl' with rfl | h
        · by_cases hk : k < blocks.length ∧ k < results.length
          · rw [if_pos hk]
            exact refLinkV1_no_newline _ _ (hnames k) (no_newline_getD results hres k)
          · rw [if_neg hk]
            exact hl
        · exact ih (k + 1) hrest l' h
      · rw [if_neg hend] at hl'
        rcases List.mem_cons.mp hl' with rfl | h
        · exact hl
        · exact ih k hrest l' h

/-- C5 (amended): re-parsing a document rewritten by the line-walk
`updateContentWithResults` — each closed block's end marker now carries the
embedded reference annotation — succeeds under the `results.go`
`parseBlocks`, which closes a block at any line starting with the end
marker, and reproduces the blocks: same directive types, and the same
contents once the trailing blank lines (which only the `blocks.go` variant
trims) are trimmed.  Under the `blocks.go` `parseBlocks` itself the
annotation line becomes block content and re-parsing fails (see the
counterexample).  Names and results are newline-free, and the original
document has no line that extends the end marker. -/
theorem reparse_rewrite_amended (content : Str) (blocks : List Block)
    (results : List Str) (names : Nat → Str)
    (hnames : ∀ k, '\n' ∉ names k) (hres : ∀ r ∈ results, '\n' ∉ r)
    (hclean : ∀ l ∈ splitLines content, cleanLine l = true)
    (hparse : parseBlocksA content = .ok blocks) :
    ∃ blocksB, parseBlocksB (updateContentV1 blocks content results names) = .ok blocksB ∧
      blocksB.map (fun b => b.type) = blocks.map (fun b => b.type) ∧
      blocksB.map (fun b => dropTrailingBlanks b.content) =
        blocks.map (fun b => b.content) := by
  unfold parseBlocksA at hparse
  cases hA : parseAGo (splitLines content) 0 0 none [] with
  | error e => rw [hA] at hparse; cases hparse
  | ok bsA =>
    rw [hA] at hparse
    have hblocks : blocks =
        bsA.map (fun b => { b with content := dropTrailingBlanks b.content }) := by
      have h' : (Except.ok (bsA.map
          (fun b => { b with content := dropTrailingBlanks b.content })) :
            Except ParseError (List Block)) = .ok blocks := hparse
      injection h' with h''
      exact h''.symm
    obtain ⟨bsB, hB, hmap⟩ := lockstepAB blocks results names (splitLines content)
      hclean 0 0 0 0 none none [] [] bsA rfl rfl hA
    have hlines : splitLines (updateContentV1 blocks content results names) =
        updV1Go blocks results names (splitLines content) 0 := by
      unfold updateContentV1
      apply splitLines_joinLines
      · cases hs : splitLines content with
        | nil => exact absurd hs (splitLines_ne_nil content)
        | cons x xs => exact updV1Go_ne_nil blocks results names x xs 0
      · exact updV1Go_no_newline blocks results names hnames hres
          (splitLines content) 0 (splitLines_no_newline content)
    have htypes : bsB.map (fun b : Block => b.type) = bsA.map (fun b : Block => b.type) := by
      have := congrArg (List.map Prod.fst) hmap
      simpa [List.map_map, Function.comp] using this
    have hconts : bsB.map (fun b : Block => b.content) =
        bsA.map (fun b : Block => b.content) := by
      have := congrArg (List.map Prod.snd) hmap
      simpa [List.map_map, Function.comp] using this
    refine ⟨bsB, ?_, ?_, ?_⟩
    · unfold parseBlocksB
      rw [hlines]
      exact hB
    · rw [hblocks]
      simp only [List.map_map]
      exact htypes
    · rw [hblocks]
      simp only [List.map_map]
      have h2 := congrArg (List.map dropTrailingBlanks) hconts
      simp only [List.map_map, Function.comp] at h2
      exact h2

/-- C5 (counterexample): the claim fails for the `blocks.go` `parseBlocks`:
on the rewritten document the annotated end marker is treated as block
content, the block never closes, and re-parsing reports an
unterminated-block error instead of reproducing the block boundaries. -/
theorem reparse_rewrite_counterexample :
    parseBlocksA c5doc = .ok [c5block] ∧
    updateContentV1 [c5block] c5doc ["4".data] (fun _ => "gentle_falcon".data) =
      ":ask\nQ\n:--(r/gentle_falcon:\"4\")".data ∧
    parseBlocksA (updateContentV1 [c5block] c5doc ["4".data]
      (fun _ => "gentle_falcon".data)) = .error (.unterminated 0) := by
  refine ⟨by decide, by decide, by decide⟩

/-- Witness for the amended re-parsing theorem at the example document. -/
theorem reparse_rewrite_amended_witness :
    ∃ blocksB, parseBlocksB (updateContentV1 [c5block] c5doc ["4".data]
        (fun _ => "gentle_falcon".data)) = .ok blocksB ∧
      blocksB.map (fun b => b.type) = [c5block].map (fun b => b.type) ∧
      blocksB.map (fun b => dropTrailingBlanks b.content) =
        [c5block].map (fun b => b.content) :=
  reparse_rewrite_amended c5doc [c5block] ["4".data] (fun _ => "gentle_falcon".data)
    (by
      intro k
      show '\n' ∉ "gentle_falcon".data
      decide)
    (by intro r hr; simp at hr; subst hr; decide)
    (by intro l hl; fin_cases hl <;> decide) (by decide)

theorem containsSub_of_isPre (s p : Str) (h : p.isPrefixOf s = true) :
    containsSub s p = true := by
  cases s with
  | nil =>
    cases p with
    | nil => rfl
    | cons c t => simp [List.isPrefixOf] at h
  | cons d rest => simp [containsSub, h]

theorem containsSub_cons_sub (s : Str) (c : Char) (p : Str)
    (h : containsSub s (c :: p) = true) : containsSub s p = true := by
  induction s with
  | nil => simp [containsSub] at h
  | cons d rest ih =>
    simp only [containsSub, Bool.or_eq_true] at h ⊢
    rcases h with h | h
    · simp only [List.isPrefixOf, Bool.and_eq_true, beq_iff_eq] at h
      exact Or.inr (containsSub_of_isPre rest p h.2)
    · exact Or.inr (ih h)

theorem slash_pml_imp (path : Str) (h : containsSub path "/.pml/".data = true) :
    containsSub path ".pml/".data = true := by
  have hsplit : ("/.pml/".data : Str) = '/' :: ".pml/".data := rfl
  rw [hsplit] at h
  exact containsSub_cons_sub path '/' _ h

/-- C10 (amended): every path containing the forward-slash `.pml`
directory segment is skipped — returned nil with no state change — by both
`ProcessFile` variants, and `IsPMLFile` rejects both separator forms; the
backslash form is skipped by the first variant only, the second variant's
test covers only `.pml/` (see the counterexample). -/
theorem pml_dir_skip (force cancelled : Bool) (llm : Str → Except Str Str)
    (names nameFor : Nat → Str) (now : Int) (st : PState) (path : Str) :
    (containsSub path "/.pml/".data = true →
      processFileV1 force llm names now st path = (.ok (), st) ∧
      processFileV2 cancelled force llm nameFor now st path = (.ok (), st) ∧
      isPMLFile path = false) ∧
    (containsSub path "\\.pml\\".data = true →
      processFileV1 force llm names now st path = (.ok (), st) ∧
      isPMLFile path = false) := by
  constructor
  · intro h
    have hv2 : skipPathV2 path = true := slash_pml_imp path h
    have hv1 : skipPathV1 path = true := by simp [skipPathV1, h]
    refine ⟨?_, ?_, ?_⟩
    · simp [processFileV1, hv1]
    · simp [processFileV2, hv2]
    · simp [isPMLFile, h]
  · intro h
    have hv1 : skipPathV1 path = true := by simp [skipPathV1, h]
    exact ⟨by simp [processFileV1, hv1], by simp [isPMLFile, h]⟩

/-- C10 (counterexample): a backslash-separated `.pml` path is not skipped
by the second `ProcessFile` variant — instead of returning nil without
touching the file it stats the path and surfaces the stat failure. -/
theorem pml_dir_skip_counterexample :
    containsSub "C:\\.pml\\x.pml".data "\\.pml\\".data = true ∧
    (processFileV2 false false (fun _ => .ok []) (fun _ => []) 0 ⟨[], []⟩
      "C:\\.pml\\x.pml".data).1 = .error .statFail := by
  refine ⟨by decide, by decide⟩

/-- Witness for the skip theorem at concrete paths in both separator
forms. -/
theorem pml_dir_skip_witness :
    processFileV1 false (fun _ => .ok []) (fun _ => []) 0 ⟨[], []⟩
        "a/.pml/x.pml".data = (.ok (), ⟨[], []⟩) ∧
    processFileV2 false false (fun _ => .ok []) (fun _ => []) 0 ⟨[], []⟩
        "a/.pml/x.pml".data = (.ok (), ⟨[], []⟩) ∧
    isPMLFile "a/.pml/x.pml".data = false ∧
    processFileV1 false (fun _ => .ok []) (fun _ => []) 0 ⟨[], []⟩
        "C:\\.pml\\x.pml".data = (.ok (), ⟨[], []⟩) ∧
    isPMLFile "C:\\.pml\\x.pml".data = false := by
  have h1 := (pml_dir_skip false false (fun _ => .ok []) (fun _ => [])
    (fun _ => []) 0 ⟨[], []⟩ "a/.pml/x.pml".data).1 (by decide)
  have h2 := (pml_dir_skip false false (fun _ => .ok []) (fun _ => [])
    (fun _ => []) 0 ⟨[], []⟩ "C:\\.pml\\x.pml".data).2 (by decide)
  exact ⟨h1.1, h1.2.1, h1.2.2, h2.1, h2.2⟩

/-- C1 (the code at the failing input): the worked example's document,
rewritten with the artifact name the 3-argument generator actually
produces, no longer has the document checksum of the original: the
link-stripping regex recognizes only bare annotations of the form
adjective-underscore-noun in parentheses, while the rewriter embeds the
result after the name, so nothing is stripped and the normalized pre-image
of the checksum changes. -/
theorem rewrite_changes_document_checksum :
    parseBlocksA exampleDoc = .ok [exampleBlock] ∧
    generateUniqueResultNameV012 "test.pml".data 0 (fun _ => false) 0 =
      "gentle_falcon".data ∧
    updateContentV1 [exampleBlock] exampleDoc ["4".data]
        (fun _ => "gentle_falcon".data) =
      ":ask\nWhat is 2+2?\n:--(r/gentle_falcon:\"4\")".data ∧
    stripResultLinks (":--(r/gentle_falcon:\"4\")".data) =
      ":--(r/gentle_falcon:\"4\")".data ∧
    stripResultLinks (":--(r/gentle_falcon)".data) = ":--".data ∧
    calculateChecksumPre (updateContentV1 [exampleBlock] exampleDoc ["4".data]
      (fun _ => "gentle_falcon".data)) ≠ calculateChecksumPre exampleDoc := by
  refine ⟨by decide, by decide, by decide, by decide, by decide, by decide⟩

/-- Witness for name uniqueness: two consecutive requests for the same
source file and block yield distinct names, and the first generated name
was not previously recorded. -/
theorem generated_names_unique_witness :
    ((runGen ⟨[], []⟩ [("a.pml".data, 0, ":ask".data),
        ("a.pml".data, 0, ":ask".data)] 5).1).Pairwise (· ≠ ·) ∧
    "ask_swift_forest_block0_0".data ∉
      ((⟨[], []⟩ : NameState)).usedNames := by
  constructor
  · exact (generated_names_unique 5
      [("a.pml".data, 0, ":ask".data), ("a.pml".data, 0, ":ask".data)] ⟨[], []⟩).1
  · exact (generated_names_unique 5
      [("a.pml".data, 0, ":ask".data), ("a.pml".data, 0, ":ask".data)] ⟨[], []⟩).2
      "ask_swift_forest_block0_0".data (by decide)
